import Mathlib

/-!
# Verification of the `EdgeHeap` cost-indexing engine (whatshap cluster editing)

Shallow embedding of `src/clusterediting/EdgeHeap.cpp`: the cost table
(`icf`/`icp`), the two indexed max-heaps (`forb_rank2edge`/`edge2forb_rank`
and `perm_rank2edge`/`edge2perm_rank`), the bundle structure
(`edgeToBundle`/`edgeBundles`) and the operations `initInducedCosts`,
`getMaxIcfEdge`, `getMaxIcpEdge`, `increaseIcf`, `increaseIcp`,
`mergeEdges` and `removeEdge`.

Edge weights (C++ `double`) are modelled as integers: the engine only
adds, negates, compares and clamps weights (ordered-group operations), so
the embedding is exact on integral inputs and no claim here depends on
rounding.  The graph adapter
(`DynamicSparseGraph` / `StaticSparseGraph`) and the triangle cost kernel
(`getIcf`/`getIcp` of two weights) are not part of the provided sources;
they are modelled from the specification (§6 and §4.1).
-/

namespace EdgeHeapModel

/-- Modelled from the spec: `DynamicSparseGraph::Forbidden`, the sentinel
meaning "fixed to absent / removed from consideration"; the spec calls it
"the minimum possible value" (it is `-∞` for `double`); modelled as a
constant strictly below every live cost value. -/
def Forbidden : ℤ := -1000000000

/-- Modelled from the spec: `DynamicSparseGraph::Permanent`, the sentinel
meaning "fixed to present"; dual to `Forbidden`. -/
def Permanent : ℤ := 1000000000

/-- Edges are unordered pairs of node ids; modelled as ordered pairs that
are always accessed through canonical `(min, max)` normalization. -/
abbrev Edge := ℕ × ℕ

/-- Modelled from the spec: `DynamicSparseGraph::InvalidEdge`, the explicit
"no edge" result of the max queries. -/
def InvalidEdge : Edge := (4294967295, 4294967295)

/-- Modelled from the spec (§6, Graph Adapter): node count, edge count,
a weight table and the external dense rank assignment (`findIndex`), with
rank `0` reserved for untracked pairs.  `weight` and `rankOf` are always
accessed through the canonical `(min, max)` edge normalization. -/
structure SpecGraph where
  numNodes : ℕ
  numEdges : ℕ
  weight : ℕ → ℕ → ℤ
  rankOf : ℕ → ℕ → ℕ

/-- Canonical (order-independent) edge weight, `getWeight`. -/
def wt (g : SpecGraph) (u v : ℕ) : ℤ := g.weight (min u v) (max u v)

/-- Canonical (order-independent) edge rank, `findIndex`. -/
def rk (g : SpecGraph) (u v : ℕ) : ℕ := g.rankOf (min u v) (max u v)

/-- Rank of an edge value, `findIndex(e)`. -/
def rkE (g : SpecGraph) (e : Edge) : ℕ := rk g e.1 e.2

/-- Modelled from the spec: `getNonZeroNeighbours(u)`, the ascending list of
nodes joined to `u` by a non-zero weight. -/
def nonZeroNeighbours (g : SpecGraph) (u : ℕ) : List ℕ :=
  (List.range g.numNodes).filter (fun v => wt g u v ≠ 0)

/-- Modelled from the spec (§4.1): the triangle cost kernel's forbid
contribution for a common neighbour with incident weights `a`, `b`
(classical weighted-cluster-editing kernel: if both edges are present,
the cheaper one must be deleted). -/
def kernelIcf (a b : ℤ) : ℤ := if 0 < a ∧ 0 < b then min a b else 0

/-- Modelled from the spec (§4.1): the triangle cost kernel's permanent
contribution (one present and one absent incident edge force either a
deletion or an insertion, whichever is cheaper). -/
def kernelIcp (a b : ℤ) : ℤ :=
  if a < 0 ∧ 0 < b then min (-a) b
  else if 0 < a ∧ b < 0 then min a (-b) else 0

/-- The mutable state of `EdgeHeap`.  `anomaly` is a ghost counter of the
diagnostic "Merged edge has negative icf/icp" reports printed by
`mergeEdges`; it models the observable reporting side channel only. -/
structure EH where
  unprocessed : ℕ
  edges : List Edge
  icf : List ℤ
  icp : List ℤ
  edge2forb_rank : List ℕ
  edge2perm_rank : List ℕ
  edgeToBundle : List ℕ
  edgeBundles : List (List ℕ)
  forb_rank2edge : List ℕ
  perm_rank2edge : List ℕ
  anomaly : ℕ
deriving DecidableEq, Repr

/-- `unprocessed` is a C++ `uint64_t`; increment modulo `2^64`. -/
def u64succ (n : ℕ) : ℕ := (n + 1) % 2 ^ 64

/-- `unprocessed` is a C++ `uint64_t`; decrement modulo `2^64`. -/
def u64pred (n : ℕ) : ℕ := (n + (2 ^ 64 - 1)) % 2 ^ 64

/-- The `EdgeHeap` constructor: vectors of size `1 + numEdges`, cost
entries at the `Forbidden` sentinel, heap vectors empty. -/
def mkEH (numEdges : ℕ) : EH :=
  { unprocessed := 0
    edges := List.replicate (1 + numEdges) InvalidEdge
    icf := List.replicate (1 + numEdges) Forbidden
    icp := List.replicate (1 + numEdges) Forbidden
    edge2forb_rank := List.replicate (1 + numEdges) 0
    edge2perm_rank := List.replicate (1 + numEdges) 0
    edgeToBundle := List.replicate (1 + numEdges) 0
    edgeBundles := List.replicate (1 + numEdges) []
    forb_rank2edge := []
    perm_rank2edge := []
    anomaly := 0 }

/-- The common non-zero neighbours of `u` and `v`: the
`std::set_intersection` of the two ascending neighbour lists. -/
def commonNbrs (g : SpecGraph) (u v : ℕ) : List ℕ :=
  (nonZeroNeighbours g u).filter (fun x => x ∈ nonZeroNeighbours g v)

/-- One iteration of the triangle loop of `initInducedCosts`: add the
kernel contributions of common neighbour `x` to the entries of `rId`. -/
def triangleStep (g : SpecGraph) (rId u v : ℕ) (t : EH) (x : ℕ) : EH :=
  { t with
    icf := t.icf.set rId (t.icf.getD rId 0 + kernelIcf (wt g u x) (wt g v x))
    icp := t.icp.set rId (t.icp.getD rId 0 + kernelIcp (wt g u x) (wt g v x)) }

/-- Loop body of the first phase of `initInducedCosts` for one pair
`(u, v)` (`u ≤ v`, `v` a non-zero neighbour of `u`): record the edge,
skip zero/sentinel weights, otherwise seed the cost entries, count the
edge, add the direct cost and fold the kernel contributions over all
common non-zero neighbours. -/
def processPair (g : SpecGraph) (s : EH) (u v : ℕ) : EH :=
  let rId := rk g u v
  if rId = 0 then s
  else
    let s1 := { s with edges := s.edges.set rId (u, v) }
    let w := wt g u v
    if w = 0 ∨ w = Forbidden ∨ w = Permanent then s1
    else
      let s2 := { s1 with
        icf := s1.icf.set rId 0
        icp := s1.icp.set rId 0
        unprocessed := u64succ s1.unprocessed }
      let s3 := { s2 with
        icf := if 0 ≤ w then s2.icf.set rId (s2.icf.getD rId 0 + w) else s2.icf
        icp := if 0 ≤ w then s2.icp else s2.icp.set rId (s2.icp.getD rId 0 + -w) }
      (commonNbrs g u v).foldl (triangleStep g rId u v) s3

/-- The pairs iterated by `initInducedCosts`: all `u`, then all non-zero
neighbours `v` of `u` with `v` not below `u`. -/
def pairsList (g : SpecGraph) : List (ℕ × ℕ) :=
  (List.range g.numNodes).flatMap fun u =>
    ((nonZeroNeighbours g u).filter (fun v => ¬ v < u)).map fun v => (u, v)

/-- Stable insertion of `a` into a list already sorted descending by
`score`; used to model `std::sort` with comparator `score[a] > score[b]`. -/
def insertDesc (score : List ℤ) (a : ℕ) : List ℕ → List ℕ
  | [] => [a]
  | b :: t => if score.getD b 0 < score.getD a 0 then a :: b :: t else b :: insertDesc score a t

/-- Sort descending by `score` (a stable refinement of `std::sort`, whose
tie order is unspecified). -/
def sortDesc (score : List ℤ) (l : List ℕ) : List ℕ := l.foldr (insertDesc score) []

/-- The pair loop of `initInducedCosts`. -/
def initPairsPhase (g : SpecGraph) (s0 : EH) : EH :=
  (pairsList g).foldl (fun s p => processPair g s p.1 p.2) s0

/-- `initInducedCosts`: the pair loop, then the heap construction (sort
all rank ids descending by `icf` resp. `icp`, record each rank's slot in
the reverse index) and the singleton-bundle initialization.  The NaN
sweep of the C++ code is diagnostic only and vacuous over `ℤ`. -/
def initInducedCosts (g : SpecGraph) (s0 : EH) : EH :=
  let s := initPairsPhase g s0
  let n := s.icf.length
  let forb := sortDesc s.icf (List.range n)
  let perm := sortDesc s.icp (List.range n)
  let e2f := (List.range n).foldl (fun m i => m.set (forb.getD i 0) i) s.edge2forb_rank
  let e2p := (List.range n).foldl (fun m i => m.set (perm.getD i 0) i) s.edge2perm_rank
  let etb := (List.range n).foldl (fun m i => m.set i i) s.edgeToBundle
  let ebn := (List.range n).foldl (fun m i => m.set i (m.getD i [] ++ [i])) s.edgeBundles
  { s with
    forb_rank2edge := forb
    perm_rank2edge := perm
    edge2forb_rank := e2f
    edge2perm_rank := e2p
    edgeToBundle := etb
    edgeBundles := ebn }

/-- The fully initialized engine for a graph. -/
def edgeHeapInit (g : SpecGraph) : EH := initInducedCosts g (mkEH g.numEdges)

/-- `getMaxIcfEdge`: read slot 0, report `InvalidEdge` when only the rank-0
placeholder remains or the top value is negative.  (Verbosity tracing is
purely observational and omitted.) -/
def getMaxIcfEdge (s : EH) : Edge :=
  let ei := s.forb_rank2edge.getD 0 0
  if s.forb_rank2edge.length ≤ 1 then InvalidEdge
  else if s.icf.getD ei 0 < 0 then InvalidEdge
  else s.edges.getD ei InvalidEdge

/-- `getMaxIcpEdge`, the `icp` twin of `getMaxIcfEdge`. -/
def getMaxIcpEdge (s : EH) : Edge :=
  let ei := s.perm_rank2edge.getD 0 0
  if s.perm_rank2edge.length ≤ 1 then InvalidEdge
  else if s.icp.getD ei 0 < 0 then InvalidEdge
  else s.edges.getD ei InvalidEdge

/-- `getIcf(e)`: cost looked up through the edge's current bundle. -/
def getIcfE (g : SpecGraph) (s : EH) (e : Edge) : ℤ :=
  s.icf.getD (s.edgeToBundle.getD (rkE g e) 0) 0

/-- `getIcp(e)`: cost looked up through the edge's current bundle. -/
def getIcpE (g : SpecGraph) (s : EH) (e : Edge) : ℤ :=
  s.icp.getD (s.edgeToBundle.getD (rkE g e) 0) 0

/-- One swap step of `updateHeap`: exchange slots `a` and `b` of the heap
array, then rewrite the reverse index entries of the two moved values
(in the order the C++ code does). -/
def heapSwap (heap index : List ℕ) (a b : ℕ) : List ℕ × List ℕ :=
  let x := heap.getD a 0
  let y := heap.getD b 0
  let h2 := (heap.set a y).set b x
  (h2, (index.set (h2.getD a 0) a).set (h2.getD b 0) b)

/-- The `change > 0` branch of `updateHeap`: sift the slot `pos` towards
the root while the parent's score is smaller.  The loop is reproduced as
structural recursion on an explicit iteration bound; the parent position
strictly decreases, so a bound of `pos` iterations (supplied by
`updateHeap`) never cuts the loop short. -/
def siftUp (score : List ℤ) : ℕ → List ℕ → List ℕ → ℕ → List ℕ × List ℕ
  | 0, heap, index, _ => (heap, index)
  | fuel + 1, heap, index, pos =>
    if 0 < pos ∧ score.getD (heap.getD ((pos - 1) / 2) 0) 0 < score.getD (heap.getD pos 0) 0 then
      let p := heapSwap heap index pos ((pos - 1) / 2)
      siftUp score fuel p.1 p.2 ((pos - 1) / 2)
    else (heap, index)

/-- The `change ≤ 0` branch of `updateHeap`: sift the slot `pos` towards
the leaves while a child's score is larger, preferring the larger child.
Structural recursion on an explicit iteration bound; the position strictly
increases below `heap.length`, so a bound of `heap.length` iterations
(supplied by `updateHeap`) never cuts the loop short. -/
def siftDown (score : List ℤ) : ℕ → List ℕ → List ℕ → ℕ → List ℕ × List ℕ
  | 0, heap, index, _ => (heap, index)
  | fuel + 1, heap, index, pos =>
    if (2 * pos + 1 < heap.length ∧
          score.getD (heap.getD pos 0) 0 < score.getD (heap.getD (2 * pos + 1) 0) 0) ∨
       (2 * pos + 2 < heap.length ∧
          score.getD (heap.getD pos 0) 0 < score.getD (heap.getD (2 * pos + 2) 0) 0) then
      if 2 * pos + 2 < heap.length ∧
          score.getD (heap.getD (2 * pos + 1) 0) 0 < score.getD (heap.getD (2 * pos + 2) 0) 0 then
        let p := heapSwap heap index pos (2 * pos + 2)
        siftDown score fuel p.1 p.2 (2 * pos + 2)
      else
        let p := heapSwap heap index pos (2 * pos + 1)
        siftDown score fuel p.1 p.2 (2 * pos + 1)
    else (heap, index)

/-- `updateHeap(heap, e, change, index, score)`: dispatch on the sign of
`change`. -/
def updateHeap (heap : List ℕ) (e : ℕ) (change : ℤ) (index : List ℕ) (score : List ℤ) :
    List ℕ × List ℕ :=
  let pos := index.getD e 0
  if 0 < change then siftUp score pos heap index pos
  else siftDown score heap.length heap index pos

/-- `increaseIcf(e, w)`: if the rank is non-zero, the delta is non-zero
and the owning bundle's `icf` is still live (`≥ 0`), add `w` clamped at 0
and re-heapify the forbid heap. -/
def increaseIcf (g : SpecGraph) (s : EH) (e : Edge) (w : ℤ) : EH :=
  let rId := rkE g e
  if 0 < rId ∧ w ≠ 0 ∧ 0 ≤ s.icf.getD (s.edgeToBundle.getD rId 0) 0 then
    let eb := s.edgeToBundle.getD rId 0
    let icf2 := s.icf.set eb (max (s.icf.getD eb 0 + w) 0)
    let p := updateHeap s.forb_rank2edge eb w s.edge2forb_rank icf2
    { s with icf := icf2, forb_rank2edge := p.1, edge2forb_rank := p.2 }
  else s

/-- `increaseIcp(e, w)`, the `icp` twin of `increaseIcf`. -/
def increaseIcp (g : SpecGraph) (s : EH) (e : Edge) (w : ℤ) : EH :=
  let rId := rkE g e
  if 0 < rId ∧ w ≠ 0 ∧ 0 ≤ s.icp.getD (s.edgeToBundle.getD rId 0) 0 then
    let eb := s.edgeToBundle.getD rId 0
    let icp2 := s.icp.set eb (max (s.icp.getD eb 0 + w) 0)
    let p := updateHeap s.perm_rank2edge eb w s.edge2perm_rank icp2
    { s with icp := icp2, perm_rank2edge := p.1, edge2perm_rank := p.2 }
  else s

/-- `removeEdge(rId)`: for a non-zero rank whose own `icf` and `icp`
entries are both still live, set both to `Forbidden`, re-heapify both
heaps and decrement `unprocessed`; otherwise do nothing. -/
def removeEdgeR (s : EH) (rId : ℕ) : EH :=
  if rId = 0 then s
  else if 0 < rId ∧ s.icf.getD rId 0 ≠ Forbidden ∧ s.icp.getD rId 0 ≠ Forbidden then
    let icf2 := s.icf.set rId Forbidden
    let icp2 := s.icp.set rId Forbidden
    let pf := updateHeap s.forb_rank2edge rId Forbidden s.edge2forb_rank icf2
    let pp := updateHeap s.perm_rank2edge rId Forbidden s.edge2perm_rank icp2
    { s with
      icf := icf2, icp := icp2
      forb_rank2edge := pf.1, edge2forb_rank := pf.2
      perm_rank2edge := pp.1, edge2perm_rank := pp.2
      unprocessed := u64pred s.unprocessed }
  else s

/-- `removeEdge(e)`: remove by the edge's rank. -/
def removeEdgeE (g : SpecGraph) (s : EH) (e : Edge) : EH := removeEdgeR s (rkE g e)

/-- The absorb step of `mergeEdges`: move every member rank of bundle
`abs` into bundle `surv`, clear `abs`, fold the cost entries (each
dimension summed only when the absorbed value is not negative, a negative
value being the reported anomaly), then remove the absorbed entry. -/
def mergeInto (s : EH) (surv abs : ℕ) : EH :=
  let members := s.edgeBundles.getD abs []
  removeEdgeR
    { s with
      edgeBundles := (s.edgeBundles.set surv (s.edgeBundles.getD surv [] ++ members)).set abs []
      edgeToBundle := members.foldl (fun m r => m.set r surv) s.edgeToBundle
      icf :=
        if s.icf.getD abs 0 < 0 then s.icf
        else s.icf.set surv (s.icf.getD surv 0 + s.icf.getD abs 0)
      icp :=
        if s.icp.getD abs 0 < 0 then s.icp
        else s.icp.set surv (s.icp.getD surv 0 + s.icp.getD abs 0)
      anomaly := s.anomaly + (if s.icf.getD abs 0 < 0 then 1 else 0) +
        (if s.icp.getD abs 0 < 0 then 1 else 0) }
    abs

/-- `mergeEdges(e1, e2)`: early return when the two ranks have a zero
bitwise AND (the C++ guard `(r1 & r2) == 0`), or when the two bundles
coincide; otherwise absorb the smaller bundle into the larger one
(ties absorb the first into the second). -/
def mergeEdges (g : SpecGraph) (s : EH) (e1 e2 : Edge) : EH :=
  let r1 := rkE g e1
  let r2 := rkE g e2
  if r1 &&& r2 = 0 then s
  else
    let eb1 := s.edgeToBundle.getD r1 0
    let eb2 := s.edgeToBundle.getD r2 0
    if eb1 = eb2 then s
    else if (s.edgeBundles.getD eb2 []).length < (s.edgeBundles.getD eb1 []).length then
      mergeInto s eb1 eb2
    else
      mergeInto s eb2 eb1

/-- `numUnprocessed()`. -/
def numUnprocessed (s : EH) : ℕ := s.unprocessed

/-! ## Heap invariants -/

/-- The score stored at heap slot `i`. -/
def hval (score : List ℤ) (heap : List ℕ) (i : ℕ) : ℤ := score.getD (heap.getD i 0) 0

/-- Max-heap order: every slot with children `2i+1`, `2i+2` in bounds
dominates them. -/
def heapOrdered (score : List ℤ) (heap : List ℕ) : Prop :=
  ∀ i < heap.length, ∀ c < heap.length, (c = 2 * i + 1 ∨ c = 2 * i + 2) →
    hval score heap c ≤ hval score heap i

instance (score : List ℤ) (heap : List ℕ) : Decidable (heapOrdered score heap) := by
  unfold heapOrdered; infer_instance

/-- The heap array and the reverse position index are mutually inverse
maps on `[0, N)` (`position_index[heap_array[i]] == i` together with the
bounds and the converse that make it meaningful). -/
def heapBij (N : ℕ) (heap index : List ℕ) : Prop :=
  heap.length = N ∧ index.length = N ∧
  (∀ i < N, heap.getD i 0 < N) ∧
  (∀ i < N, index.getD (heap.getD i 0) 0 = i) ∧
  (∀ v < N, index.getD v 0 < N ∧ heap.getD (index.getD v 0) 0 = v)

instance (N : ℕ) (heap index : List ℕ) : Decidable (heapBij N heap index) := by
  unfold heapBij; infer_instance

/-- Every cost entry is either the `Forbidden` sentinel (removed) or a
non-negative live value. -/
def valuesOK (N : ℕ) (score : List ℤ) : Prop :=
  ∀ r < N, score.getD r 0 = Forbidden ∨ 0 ≤ score.getD r 0

instance (N : ℕ) (score : List ℤ) : Decidable (valuesOK N score) := by
  unfold valuesOK; infer_instance

/-- Well-formedness of an engine state with table size `N`: both indexed
heaps are consistent and max-ordered, cost entries are removed-or-live,
and the bundle map stays within the table. -/
def WF (N : ℕ) (s : EH) : Prop :=
  s.icf.length = N ∧ s.icp.length = N ∧
  heapBij N s.forb_rank2edge s.edge2forb_rank ∧
  heapBij N s.perm_rank2edge s.edge2perm_rank ∧
  heapOrdered s.icf s.forb_rank2edge ∧
  heapOrdered s.icp s.perm_rank2edge ∧
  valuesOK N s.icf ∧ valuesOK N s.icp ∧
  (∀ r < N, s.edgeToBundle.getD r 0 < N)

instance (N : ℕ) (s : EH) : Decidable (WF N s) := by
  unfold WF; infer_instance

/-! ## Basic list access lemmas -/

theorem getD_set_self {α : Type} (l : List α) (i : ℕ) (a d : α) (h : i < l.length) :
    (l.set i a).getD i d = a := by
  simp [List.getD_eq_getElem?_getD, List.getElem?_set_self', h]

theorem getD_set_ne {α : Type} (l : List α) {i j : ℕ} (a d : α) (h : i ≠ j) :
    (l.set i a).getD j d = l.getD j d := by
  simp [List.getD_eq_getElem?_getD, List.getElem?_set_ne h]

theorem getD_replicate {α : Type} {n i : ℕ} (a d : α) (h : i < n) :
    (List.replicate n a).getD i d = a := by
  simp [List.getD_eq_getElem?_getD, List.getElem?_replicate, h]

/-! ## `heapSwap` lemmas -/

theorem heapSwap_fst_length (heap index : List ℕ) (a b : ℕ) :
    (heapSwap heap index a b).1.length = heap.length := by
  simp [heapSwap]

theorem heapSwap_snd_length (heap index : List ℕ) (a b : ℕ) :
    (heapSwap heap index a b).2.length = index.length := by
  simp [heapSwap]

theorem heapSwap_fst (heap index : List ℕ) (a b : ℕ) :
    (heapSwap heap index a b).1 = (heap.set a (heap.getD b 0)).set b (heap.getD a 0) := rfl

theorem heapSwap_snd (heap index : List ℕ) (a b : ℕ) :
    (heapSwap heap index a b).2 =
      (index.set ((heapSwap heap index a b).1.getD a 0) a).set
        ((heapSwap heap index a b).1.getD b 0) b := rfl

theorem heapSwap_fst_getD_fst (heap index : List ℕ) {a b : ℕ} (hab : a ≠ b)
    (ha : a < heap.length) :
    (heapSwap heap index a b).1.getD a 0 = heap.getD b 0 := by
  rw [heapSwap_fst, getD_set_ne _ _ _ (Ne.symm hab),
    getD_set_self _ _ _ _ ha]

theorem heapSwap_fst_getD_snd (heap index : List ℕ) (a : ℕ) {b : ℕ}
    (hb : b < heap.length) :
    (heapSwap heap index a b).1.getD b 0 = heap.getD a 0 := by
  rw [heapSwap_fst, getD_set_self]
  simpa using hb

theorem heapSwap_fst_getD_other (heap index : List ℕ) (a b : ℕ) {i : ℕ}
    (hia : i ≠ a) (hib : i ≠ b) :
    (heapSwap heap index a b).1.getD i 0 = heap.getD i 0 := by
  rw [heapSwap_fst, getD_set_ne _ _ _ (Ne.symm hib), getD_set_ne _ _ _ (Ne.symm hia)]

theorem heapSwap_bij {N : ℕ} {heap index : List ℕ} {a b : ℕ}
    (hb : heapBij N heap index) (haN : a < N) (hbN : b < N) (hab : a ≠ b) :
    heapBij N (heapSwap heap index a b).1 (heapSwap heap index a b).2 := by
  obtain ⟨hlen, hilen, hbound, hleft, hright⟩ := hb
  have haL : a < heap.length := by omega
  have hbL : b < heap.length := by omega
  have hxy : heap.getD a 0 ≠ heap.getD b 0 := by
    intro hcon
    have h1 := hleft a haN
    have h2 := hleft b hbN
    rw [hcon] at h1
    exact hab (h1.symm.trans h2)
  have fa : (heapSwap heap index a b).1.getD a 0 = heap.getD b 0 :=
    heapSwap_fst_getD_fst heap index hab haL
  have fb : (heapSwap heap index a b).1.getD b 0 = heap.getD a 0 :=
    heapSwap_fst_getD_snd heap index a hbL
  have fo : ∀ i, i ≠ a → i ≠ b →
      (heapSwap heap index a b).1.getD i 0 = heap.getD i 0 :=
    fun i h1 h2 => heapSwap_fst_getD_other heap index a b h1 h2
  have hsnd : (heapSwap heap index a b).2 =
      (index.set (heap.getD b 0) a).set (heap.getD a 0) b := by
    rw [heapSwap_snd, fb, fa]
  have ga : (heapSwap heap index a b).2.getD (heap.getD a 0) 0 = b := by
    rw [hsnd, getD_set_self]
    simp only [List.length_set]
    have := hbound a haN
    omega
  have gb : (heapSwap heap index a b).2.getD (heap.getD b 0) 0 = a := by
    rw [hsnd, getD_set_ne _ _ _ hxy, getD_set_self]
    have := hbound b hbN
    omega
  have go : ∀ v, v ≠ heap.getD a 0 → v ≠ heap.getD b 0 →
      (heapSwap heap index a b).2.getD v 0 = index.getD v 0 := by
    intro v h1 h2
    rw [hsnd, getD_set_ne _ _ _ (Ne.symm h1), getD_set_ne _ _ _ (Ne.symm h2)]
  have hne_of_ne : ∀ i, i < N → i ≠ a → heap.getD i 0 ≠ heap.getD a 0 := by
    intro i hiN hia hcon
    have h1 := hleft i hiN
    have h2 := hleft a haN
    rw [hcon] at h1
    exact hia (h1.symm.trans h2)
  have hne_of_ne' : ∀ i, i < N → i ≠ b → heap.getD i 0 ≠ heap.getD b 0 := by
    intro i hiN hib hcon
    have h1 := hleft i hiN
    have h2 := hleft b hbN
    rw [hcon] at h1
    exact hib (h1.symm.trans h2)
  refine ⟨by simpa [heapSwap_fst_length] using hlen,
          by simpa [heapSwap_snd_length] using hilen, ?_, ?_, ?_⟩
  · intro i hiN
    by_cases hia : i = a
    · subst hia
      rw [fa]
      exact hbound b hbN
    by_cases hib : i = b
    · subst hib
      rw [fb]
      exact hbound a haN
    · rw [fo i hia hib]
      exact hbound i hiN
  · intro i hiN
    by_cases hia : i = a
    · subst hia
      rw [fa, gb]
    by_cases hib : i = b
    · subst hib
      rw [fb, ga]
    · rw [fo i hia hib, go _ (hne_of_ne i hiN hia) (hne_of_ne' i hiN hib)]
      exact hleft i hiN
  · intro v hvN
    by_cases hvx : v = heap.getD a 0
    · subst hvx
      rw [ga, fb]
      exact ⟨hbN, rfl⟩
    by_cases hvy : v = heap.getD b 0
    · subst hvy
      rw [gb, fa]
      exact ⟨haN, rfl⟩
    · rw [go v hvx hvy]
      obtain ⟨hiN, hrv⟩ := hright v hvN
      have hia : index.getD v 0 ≠ a := by
        intro hcon
        rw [hcon] at hrv
        exact hvx hrv.symm
      have hib : index.getD v 0 ≠ b := by
        intro hcon
        rw [hcon] at hrv
        exact hvy hrv.symm
      exact ⟨hiN, by rw [fo _ hia hib, hrv]⟩

/-! ## Sift preservation of the heap/index bijection -/

theorem siftUp_bij {N : ℕ} (score : List ℤ) :
    ∀ (fuel : ℕ) (heap index : List ℕ) (pos : ℕ), pos < N ∨ pos = 0 →
      heapBij N heap index →
      heapBij N (siftUp score fuel heap index pos).1 (siftUp score fuel heap index pos).2 := by
  intro fuel
  induction fuel with
  | zero =>
    intro heap index pos _ hb
    simpa [siftUp] using hb
  | succ fuel ih =>
    intro heap index pos hpos hb
    simp only [siftUp]
    split
    case isTrue h =>
      have h0 : 0 < pos := h.1
      have hpN : pos < N := by rcases hpos with h' | h' <;> omega
      have hqN : (pos - 1) / 2 < N := by omega
      exact ih _ _ _ (Or.inl hqN) (heapSwap_bij hb hpN hqN (by omega))
    case isFalse => exact hb

theorem siftDown_bij {N : ℕ} (score : List ℤ) :
    ∀ (fuel : ℕ) (heap index : List ℕ) (pos : ℕ),
      heapBij N heap index →
      heapBij N (siftDown score fuel heap index pos).1 (siftDown score fuel heap index pos).2 := by
  intro fuel
  induction fuel with
  | zero =>
    intro heap index pos hb
    simpa [siftDown] using hb
  | succ fuel ih =>
    intro heap index pos hb
    have hlenN : heap.length = N := hb.1
    simp only [siftDown]
    split
    case isTrue h =>
      split
      case isTrue hc =>
        have hrN : 2 * pos + 2 < N := by omega
        exact ih _ _ _ (heapSwap_bij hb (by omega) hrN (by omega))
      case isFalse hc =>
        have hlN : 2 * pos + 1 < N := by
          rcases h with ⟨h1, _⟩ | ⟨h1, _⟩ <;> omega
        exact ih _ _ _ (heapSwap_bij hb (by omega) hlN (by omega))
    case isFalse => exact hb

/-! ## Sift preservation of the max-heap order -/

/-- Invariant of the sift-up loop: every parent/child pair is ordered
except possibly the one whose child is `pos`, and the children of `pos`
are additionally dominated by the parent of `pos`. -/
def upInv (score : List ℤ) (heap : List ℕ) (pos : ℕ) : Prop :=
  (∀ i c, c < heap.length → (c = 2 * i + 1 ∨ c = 2 * i + 2) → c ≠ pos →
    hval score heap c ≤ hval score heap i) ∧
  (∀ c, c < heap.length → (c = 2 * pos + 1 ∨ c = 2 * pos + 2) → 0 < pos →
    hval score heap c ≤ hval score heap ((pos - 1) / 2))

/-- Invariant of the sift-down loop: every parent/child pair is ordered
except possibly those whose parent is `pos`, and the children of `pos`
are dominated by the parent of `pos`. -/
def downInv (score : List ℤ) (heap : List ℕ) (pos : ℕ) : Prop :=
  (∀ i c, c < heap.length → (c = 2 * i + 1 ∨ c = 2 * i + 2) → i ≠ pos →
    hval score heap c ≤ hval score heap i) ∧
  (∀ c, c < heap.length → (c = 2 * pos + 1 ∨ c = 2 * pos + 2) → 0 < pos →
    hval score heap c ≤ hval score heap ((pos - 1) / 2))

theorem hval_heapSwap_fst (score : List ℤ) (heap index : List ℕ) {a b : ℕ}
    (hab : a ≠ b) (ha : a < heap.length) :
    hval score (heapSwap heap index a b).1 a = hval score heap b := by
  simp only [hval]
  rw [heapSwap_fst_getD_fst heap index hab ha]

theorem hval_heapSwap_snd (score : List ℤ) (heap index : List ℕ) (a : ℕ) {b : ℕ}
    (hb : b < heap.length) :
    hval score (heapSwap heap index a b).1 b = hval score heap a := by
  simp only [hval]
  rw [heapSwap_fst_getD_snd heap index a hb]

theorem hval_heapSwap_other (score : List ℤ) (heap index : List ℕ) (a b : ℕ) {i : ℕ}
    (hia : i ≠ a) (hib : i ≠ b) :
    hval score (heapSwap heap index a b).1 i = hval score heap i := by
  simp only [hval]
  rw [heapSwap_fst_getD_other heap index a b hia hib]

theorem upInv_heapSwap (score : List ℤ) (heap index : List ℕ) (pos : ℕ)
    (h0 : 0 < pos) (hlen : pos < heap.length)
    (hg : hval score heap ((pos - 1) / 2) < hval score heap pos)
    (hinv : upInv score heap pos) :
    upInv score (heapSwap heap index pos ((pos - 1) / 2)).1 ((pos - 1) / 2) := by
  obtain ⟨inv1, inv2⟩ := hinv
  have hqpos : (pos - 1) / 2 < pos := by omega
  have hqlen : (pos - 1) / 2 < heap.length := by omega
  have epos : hval score (heapSwap heap index pos ((pos - 1) / 2)).1 pos =
      hval score heap ((pos - 1) / 2) :=
    hval_heapSwap_fst score heap index (by omega) hlen
  have eq' : hval score (heapSwap heap index pos ((pos - 1) / 2)).1 ((pos - 1) / 2) =
      hval score heap pos :=
    hval_heapSwap_snd score heap index pos hqlen
  have eo : ∀ i, i ≠ pos → i ≠ (pos - 1) / 2 →
      hval score (heapSwap heap index pos ((pos - 1) / 2)).1 i = hval score heap i :=
    fun i h1 h2 => hval_heapSwap_other score heap index pos ((pos - 1) / 2) h1 h2
  have hL : (heapSwap heap index pos ((pos - 1) / 2)).1.length = heap.length :=
    heapSwap_fst_length heap index pos ((pos - 1) / 2)
  constructor
  · intro i c hc hrel hcq
    rw [hL] at hc
    by_cases hcpos : c = pos
    · have hiq : i = (pos - 1) / 2 := by omega
      rw [hcpos, hiq, epos, eq']
      exact le_of_lt hg
    · have hec : hval score (heapSwap heap index pos ((pos - 1) / 2)).1 c =
          hval score heap c := eo c hcpos hcq
      by_cases hipos : i = pos
      · rw [hec, hipos, epos]
        rw [hipos] at hrel
        exact inv2 c hc hrel h0
      by_cases hiq : i = (pos - 1) / 2
      · rw [hec, hiq, eq']
        rw [hiq] at hrel
        exact le_trans (inv1 _ c hc hrel hcpos) (le_of_lt hg)
      · rw [hec, eo i hipos hiq]
        exact inv1 i c hc hrel hcpos
  · intro c hc hrel hq0
    rw [hL] at hc
    have hgpq : (((pos - 1) / 2) - 1) / 2 < (pos - 1) / 2 := by omega
    have hgp_ne_pos : (((pos - 1) / 2) - 1) / 2 ≠ pos := by omega
    have hgp_ne_q : (((pos - 1) / 2) - 1) / 2 ≠ (pos - 1) / 2 := by omega
    have egp : hval score (heapSwap heap index pos ((pos - 1) / 2)).1
        ((((pos - 1) / 2) - 1) / 2) = hval score heap ((((pos - 1) / 2) - 1) / 2) :=
      eo _ hgp_ne_pos hgp_ne_q
    have hqrel : (pos - 1) / 2 = 2 * ((((pos - 1) / 2) - 1) / 2) + 1 ∨
        (pos - 1) / 2 = 2 * ((((pos - 1) / 2) - 1) / 2) + 2 := by omega
    have hqle : hval score heap ((pos - 1) / 2) ≤
        hval score heap ((((pos - 1) / 2) - 1) / 2) :=
      inv1 _ _ hqlen hqrel (by omega)
    by_cases hcpos : c = pos
    · rw [hcpos, epos, egp]
      exact hqle
    · have hcq : c ≠ (pos - 1) / 2 := by omega
      rw [eo c hcpos hcq, egp]
      exact le_trans (inv1 _ c hc hrel hcpos) hqle

theorem downInv_heapSwap_left (score : List ℤ) (heap index : List ℕ) (pos : ℕ)
    (hl : 2 * pos + 1 < heap.length)
    (hswap : hval score heap pos < hval score heap (2 * pos + 1))
    (hother : 2 * pos + 2 < heap.length →
      hval score heap (2 * pos + 2) ≤ hval score heap (2 * pos + 1))
    (hinv : downInv score heap pos) :
    downInv score (heapSwap heap index pos (2 * pos + 1)).1 (2 * pos + 1) := by
  obtain ⟨inv1, inv2⟩ := hinv
  have hplen : pos < heap.length := by omega
  have epos : hval score (heapSwap heap index pos (2 * pos + 1)).1 pos =
      hval score heap (2 * pos + 1) :=
    hval_heapSwap_fst score heap index (by omega) hplen
  have el : hval score (heapSwap heap index pos (2 * pos + 1)).1 (2 * pos + 1) =
      hval score heap pos :=
    hval_heapSwap_snd score heap index pos hl
  have eo : ∀ i, i ≠ pos → i ≠ 2 * pos + 1 →
      hval score (heapSwap heap index pos (2 * pos + 1)).1 i = hval score heap i :=
    fun i h1 h2 => hval_heapSwap_other score heap index pos (2 * pos + 1) h1 h2
  have hL : (heapSwap heap index pos (2 * pos + 1)).1.length = heap.length :=
    heapSwap_fst_length heap index pos (2 * pos + 1)
  constructor
  · intro i c hc hrel hil
    rw [hL] at hc
    by_cases hipos : i = pos
    · rw [hipos] at hrel
      rcases hrel with hcl | hcr
      · rw [hipos, hcl, el, epos]
        exact le_of_lt hswap
      · rw [hipos, hcr, eo _ (by omega) (by omega), epos]
        rw [hcr] at hc
        exact hother hc
    · by_cases hcpos : c = pos
      · have h0 : 0 < pos := by omega
        have hiq : i = (pos - 1) / 2 := by omega
        have hine : i ≠ 2 * pos + 1 := hil
        rw [hcpos, hiq, epos, eo _ (by omega) (by rw [← hiq]; exact hil)]
        exact inv2 (2 * pos + 1) hl (Or.inl rfl) h0
      · have hcl : c ≠ 2 * pos + 1 := by
          intro hcon
          exact hipos (by omega)
        rw [eo c hcpos hcl, eo i hipos hil]
        exact inv1 i c hc hrel hipos
  · intro c hc hrel _
    rw [hL] at hc
    have hpar : (2 * pos + 1 - 1) / 2 = pos := by omega
    have hcpos : c ≠ pos := by omega
    have hcl : c ≠ 2 * pos + 1 := by omega
    rw [eo c hcpos hcl, hpar, epos]
    exact inv1 (2 * pos + 1) c hc hrel (by omega)

theorem downInv_heapSwap_right (score : List ℤ) (heap index : List ℕ) (pos : ℕ)
    (hr : 2 * pos + 2 < heap.length)
    (hswap : hval score heap pos < hval score heap (2 * pos + 2))
    (hlr : hval score heap (2 * pos + 1) < hval score heap (2 * pos + 2))
    (hinv : downInv score heap pos) :
    downInv score (heapSwap heap index pos (2 * pos + 2)).1 (2 * pos + 2) := by
  obtain ⟨inv1, inv2⟩ := hinv
  have hplen : pos < heap.length := by omega
  have epos : hval score (heapSwap heap index pos (2 * pos + 2)).1 pos =
      hval score heap (2 * pos + 2) :=
    hval_heapSwap_fst score heap index (by omega) hplen
  have er : hval score (heapSwap heap index pos (2 * pos + 2)).1 (2 * pos + 2) =
      hval score heap pos :=
    hval_heapSwap_snd score heap index pos hr
  have eo : ∀ i, i ≠ pos → i ≠ 2 * pos + 2 →
      hval score (heapSwap heap index pos (2 * pos + 2)).1 i = hval score heap i :=
    fun i h1 h2 => hval_heapSwap_other score heap index pos (2 * pos + 2) h1 h2
  have hL : (heapSwap heap index pos (2 * pos + 2)).1.length = heap.length :=
    heapSwap_fst_length heap index pos (2 * pos + 2)
  constructor
  · intro i c hc hrel hir
    rw [hL] at hc
    by_cases hipos : i = pos
    · rw [hipos] at hrel
      rcases hrel with hcl | hcr
      · rw [hipos, hcl, eo _ (by omega) (by omega), epos]
        exact le_of_lt hlr
      · rw [hipos, hcr, er, epos]
        exact le_of_lt hswap
    · by_cases hcpos : c = pos
      · have h0 : 0 < pos := by omega
        have hiq : i = (pos - 1) / 2 := by omega
        rw [hcpos, hiq, epos, eo _ (by omega) (by rw [← hiq]; exact hir)]
        exact inv2 (2 * pos + 2) hr (Or.inr rfl) h0
      · have hcr : c ≠ 2 * pos + 2 := by
          intro hcon
          exact hipos (by omega)
        rw [eo c hcpos hcr, eo i hipos hir]
        exact inv1 i c hc hrel hipos
  · intro c hc hrel _
    rw [hL] at hc
    have hpar : (2 * pos + 2 - 1) / 2 = pos := by omega
    have hcpos : c ≠ pos := by omega
    have hcr : c ≠ 2 * pos + 2 := by omega
    rw [eo c hcpos hcr, hpar, epos]
    exact inv1 (2 * pos + 2) c hc hrel (by omega)

theorem heapOrdered_of_upInv (score : List ℤ) (heap : List ℕ) (pos : ℕ)
    (hinv : upInv score heap pos)
    (hstop : ¬(0 < pos ∧ hval score heap ((pos - 1) / 2) < hval score heap pos)) :
    heapOrdered score heap := by
  intro i _ c hc hrel
  by_cases hcp : c = pos
  · have h0 : 0 < pos := by omega
    have hiq : i = (pos - 1) / 2 := by omega
    rw [hcp, hiq]
    exact le_of_not_lt (fun hlt => hstop ⟨h0, hlt⟩)
  · exact hinv.1 i c hc hrel hcp

theorem heapOrdered_of_downInv (score : List ℤ) (heap : List ℕ) (pos : ℕ)
    (hinv : downInv score heap pos)
    (hstop : ¬((2 * pos + 1 < heap.length ∧
        hval score heap pos < hval score heap (2 * pos + 1)) ∨
      (2 * pos + 2 < heap.length ∧
        hval score heap pos < hval score heap (2 * pos + 2)))) :
    heapOrdered score heap := by
  intro i _ c hc hrel
  by_cases hip : i = pos
  · rw [hip] at hrel
    rcases hrel with hcl | hcr
    · rw [hip, hcl]
      rw [hcl] at hc
      exact le_of_not_lt (fun hlt => hstop (Or.inl ⟨hc, hlt⟩))
    · rw [hip, hcr]
      rw [hcr] at hc
      exact le_of_not_lt (fun hlt => hstop (Or.inr ⟨hc, hlt⟩))
  · exact hinv.1 i c hc hrel hip

theorem siftUp_heapOrdered (score : List ℤ) :
    ∀ (fuel : ℕ) (heap index : List ℕ) (pos : ℕ), pos ≤ fuel →
      (pos = 0 ∨ pos < heap.length) → upInv score heap pos →
      heapOrdered score (siftUp score fuel heap index pos).1 := by
  intro fuel
  induction fuel with
  | zero =>
    intro heap index pos hf hb hinv
    have h0 : pos = 0 := by omega
    subst h0
    simp only [siftUp]
    exact heapOrdered_of_upInv score heap 0 hinv (by simp)
  | succ fuel ih =>
    intro heap index pos hf hb hinv
    simp only [siftUp]
    split
    case isTrue h =>
      have h0 : 0 < pos := h.1
      have hlen : pos < heap.length := by rcases hb with h' | h' <;> omega
      apply ih
      · omega
      · right
        rw [heapSwap_fst_length]
        omega
      · exact upInv_heapSwap score heap index pos h0 hlen h.2 hinv
    case isFalse h =>
      exact heapOrdered_of_upInv score heap pos hinv h

theorem siftDown_heapOrdered (score : List ℤ) :
    ∀ (fuel : ℕ) (heap index : List ℕ) (pos : ℕ), heap.length - pos ≤ fuel →
      downInv score heap pos →
      heapOrdered score (siftDown score fuel heap index pos).1 := by
  intro fuel
  induction fuel with
  | zero =>
    intro heap index pos hf hinv
    simp only [siftDown]
    apply heapOrdered_of_downInv score heap pos hinv
    intro hcon
    rcases hcon with ⟨h1, _⟩ | ⟨h1, _⟩ <;> omega
  | succ fuel ih =>
    intro heap index pos hf hinv
    simp only [siftDown]
    split
    case isTrue h =>
      split
      case isTrue hc =>
        have hswap : hval score heap pos < hval score heap (2 * pos + 2) := by
          rcases h with ⟨h1, h2⟩ | ⟨h1, h2⟩
          · exact lt_trans h2 hc.2
          · exact h2
        apply ih
        · rw [heapSwap_fst_length]
          omega
        · exact downInv_heapSwap_right score heap index pos hc.1 hswap hc.2 hinv
      case isFalse hc =>
        have hl : 2 * pos + 1 < heap.length := by
          rcases h with ⟨h1, _⟩ | ⟨h1, _⟩ <;> omega
        have hswap : hval score heap pos < hval score heap (2 * pos + 1) := by
          rcases h with ⟨h1, h2⟩ | ⟨h1, h2⟩
          · exact h2
          · have hx : ¬ (score.getD (heap.getD (2 * pos + 1) 0) 0 <
                score.getD (heap.getD (2 * pos + 2) 0) 0) := fun hx => hc ⟨h1, hx⟩
            exact lt_of_lt_of_le h2 (not_lt.mp hx)
        have hother : 2 * pos + 2 < heap.length →
            hval score heap (2 * pos + 2) ≤ hval score heap (2 * pos + 1) := by
          intro hrr
          exact le_of_not_lt (fun hx => hc ⟨hrr, hx⟩)
        apply ih
        · rw [heapSwap_fst_length]
          omega
        · exact downInv_heapSwap_left score heap index pos hl hswap hother hinv
    case isFalse h =>
      exact heapOrdered_of_downInv score heap pos hinv h

/-! ## Invariants after a single score change -/

theorem upInv_set (score : List ℤ) (heap : List ℕ) {eb : ℕ} (v : ℤ) {pos : ℕ}
    (hord : heapOrdered score heap)
    (hpos : pos < heap.length) (hheap : heap.getD pos 0 = eb)
    (huniq : ∀ i < heap.length, heap.getD i 0 = eb → i = pos)
    (heb : eb < score.length)
    (hv : score.getD eb 0 ≤ v) :
    upInv (score.set eb v) heap pos := by
  have hset : (score.set eb v).getD eb 0 = v := getD_set_self score eb v 0 heb
  have hne : ∀ i, heap.getD i 0 ≠ eb →
      hval (score.set eb v) heap i = hval score heap i := by
    intro i hi
    simp only [hval]
    rw [getD_set_ne _ _ _ (fun hcon => hi hcon.symm)]
  have hposval : hval (score.set eb v) heap pos = v := by
    simp only [hval]
    rw [hheap, hset]
  constructor
  · intro i c hc hrel hcpos
    have hiL : i < heap.length := by omega
    have hcne : heap.getD c 0 ≠ eb := fun hcon => hcpos (huniq c hc hcon)
    rw [hne c hcne]
    by_cases hieb : heap.getD i 0 = eb
    · have hip : i = pos := huniq i hiL hieb
      rw [hip, hposval]
      refine le_trans (hord i hiL c hc hrel) (le_trans (le_of_eq ?_) hv)
      simp only [hval]
      rw [hieb]
    · rw [hne i hieb]
      exact hord i hiL c hc hrel
  · intro c hc hrel h0
    have hcpos : c ≠ pos := by omega
    have hq : (pos - 1) / 2 < pos := by omega
    have hqne : (pos - 1) / 2 ≠ pos := by omega
    have hcne : heap.getD c 0 ≠ eb := fun hcon => hcpos (huniq c hc hcon)
    have hqeb : heap.getD ((pos - 1) / 2) 0 ≠ eb := by
      intro hcon
      exact hqne (huniq _ (by omega) hcon)
    rw [hne c hcne, hne _ hqeb]
    have hrel2 : pos = 2 * ((pos - 1) / 2) + 1 ∨ pos = 2 * ((pos - 1) / 2) + 2 := by omega
    exact le_trans (hord pos hpos c hc hrel) (hord _ (by omega) pos hpos hrel2)

theorem downInv_set (score : List ℤ) (heap : List ℕ) {eb : ℕ} (v : ℤ) {pos : ℕ}
    (hord : heapOrdered score heap)
    (hpos : pos < heap.length) (hheap : heap.getD pos 0 = eb)
    (huniq : ∀ i < heap.length, heap.getD i 0 = eb → i = pos)
    (heb : eb < score.length)
    (hv : v ≤ score.getD eb 0) :
    downInv (score.set eb v) heap pos := by
  have hset : (score.set eb v).getD eb 0 = v := getD_set_self score eb v 0 heb
  have hne : ∀ i, heap.getD i 0 ≠ eb →
      hval (score.set eb v) heap i = hval score heap i := by
    intro i hi
    simp only [hval]
    rw [getD_set_ne _ _ _ (fun hcon => hi hcon.symm)]
  have hposval : hval (score.set eb v) heap pos = v := by
    simp only [hval]
    rw [hheap, hset]
  have hposold : hval score heap pos = score.getD eb 0 := by
    simp only [hval]
    rw [hheap]
  constructor
  · intro i c hc hrel hipos
    have hiL : i < heap.length := by omega
    have hieb : heap.getD i 0 ≠ eb := fun hcon => hipos (huniq i hiL hcon)
    rw [hne i hieb]
    by_cases hcpos : c = pos
    · rw [hcpos, hposval]
      refine le_trans hv ?_
      rw [← hposold, ← hcpos]
      exact hord i hiL c hc hrel
    · have hcne : heap.getD c 0 ≠ eb := fun hcon => hcpos (huniq c hc hcon)
      rw [hne c hcne]
      exact hord i hiL c hc hrel
  · intro c hc hrel h0
    have hcpos : c ≠ pos := by omega
    have hqne : (pos - 1) / 2 ≠ pos := by omega
    have hcne : heap.getD c 0 ≠ eb := fun hcon => hcpos (huniq c hc hcon)
    have hqeb : heap.getD ((pos - 1) / 2) 0 ≠ eb := by
      intro hcon
      exact hqne (huniq _ (by omega) hcon)
    rw [hne c hcne, hne _ hqeb]
    have hrel2 : pos = 2 * ((pos - 1) / 2) + 1 ∨ pos = 2 * ((pos - 1) / 2) + 2 := by omega
    exact le_trans (hord pos hpos c hc hrel) (hord _ (by omega) pos hpos hrel2)

/-- Combined effect of `updateHeap` after writing `v` into slot `eb` of the
score table: heap order is restored and the heap/index bijection is kept,
provided the write direction matches the sign of `change`. -/
theorem updateHeap_WF (N : ℕ) {heap index : List ℕ} {score : List ℤ} {eb : ℕ} {v : ℤ}
    (change : ℤ)
    (hbij : heapBij N heap index)
    (hord : heapOrdered score heap)
    (hlen : score.length = N)
    (hebN : eb < N)
    (hdir : if 0 < change then score.getD eb 0 ≤ v else v ≤ score.getD eb 0) :
    heapOrdered (score.set eb v) (updateHeap heap eb change index (score.set eb v)).1 ∧
    heapBij N (updateHeap heap eb change index (score.set eb v)).1
      (updateHeap heap eb change index (score.set eb v)).2 := by
  obtain ⟨hlenh, hleni, hbound, hleft, hright⟩ := hbij
  obtain ⟨hposN, hheap⟩ := hright eb hebN
  have huniq : ∀ i < heap.length, heap.getD i 0 = eb → i = index.getD eb 0 := by
    intro i hiL hieb
    have := hleft i (by omega)
    rw [hieb] at this
    omega
  have hposL : index.getD eb 0 < heap.length := by omega
  have hebL : eb < score.length := by omega
  simp only [updateHeap]
  split
  case isTrue hchange =>
    rw [if_pos hchange] at hdir
    constructor
    · exact siftUp_heapOrdered (score.set eb v) _ heap index _ le_rfl (Or.inr hposL)
        (upInv_set score heap v hord hposL hheap huniq hebL hdir)
    · exact siftUp_bij (score.set eb v) _ heap index _ (Or.inl (by omega))
        ⟨hlenh, hleni, hbound, hleft, hright⟩
  case isFalse hchange =>
    rw [if_neg hchange] at hdir
    constructor
    · exact siftDown_heapOrdered (score.set eb v) _ heap index _ (by omega)
        (downInv_set score heap v hord hposL hheap huniq hebL hdir)
    · exact siftDown_bij (score.set eb v) _ heap index _
        ⟨hlenh, hleni, hbound, hleft, hright⟩

/-- `updateHeap` keeps the heap/index bijection regardless of scores. -/
theorem updateHeap_bij {N : ℕ} {heap index : List ℕ} (e : ℕ) (change : ℤ)
    (score : List ℤ) (hbij : heapBij N heap index) (heN : e < N) :
    heapBij N (updateHeap heap e change index score).1
      (updateHeap heap e change index score).2 := by
  have hposN : index.getD e 0 < N := (hbij.2.2.2.2 e heN).1
  simp only [updateHeap]
  split
  · exact siftUp_bij score _ heap index _ (Or.inl hposN) hbij
  · exact siftDown_bij score _ heap index _ hbij

/-! ## Operation-level invariant preservation -/

theorem increaseIcf_preserves_WF {g : SpecGraph} {N : ℕ} {s : EH} {e : Edge} {w : ℤ}
    (hWF : WF N s) (hrk : rkE g e < N) : WF N (increaseIcf g s e w) := by
  obtain ⟨hicf, hicp, hbf, hbp, hof, hop, hvf, hvp, hbt⟩ := hWF
  simp only [increaseIcf]
  split
  case isTrue h =>
    obtain ⟨h0, hw, hlive⟩ := h
    have hebN : s.edgeToBundle.getD (rkE g e) 0 < N := hbt _ hrk
    have hebL : s.edgeToBundle.getD (rkE g e) 0 < s.icf.length := by omega
    have hdir : if 0 < w then
        s.icf.getD (s.edgeToBundle.getD (rkE g e) 0) 0 ≤
          max (s.icf.getD (s.edgeToBundle.getD (rkE g e) 0) 0 + w) 0
      else
        max (s.icf.getD (s.edgeToBundle.getD (rkE g e) 0) 0 + w) 0 ≤
          s.icf.getD (s.edgeToBundle.getD (rkE g e) 0) 0 := by
      split
      case isTrue hw0 =>
        exact le_trans (by omega) (le_max_left _ _)
      case isFalse hw0 =>
        exact max_le (by omega) hlive
    have hmain := updateHeap_WF N w hbf hof hicf hebN hdir
    refine ⟨by simpa using hicf, hicp, hmain.2, hbp, hmain.1, hop, ?_, hvp, hbt⟩
    intro r hr
    by_cases hre : r = s.edgeToBundle.getD (rkE g e) 0
    · right
      rw [hre, getD_set_self _ _ _ _ hebL]
      exact le_max_right _ _
    · rw [getD_set_ne _ _ _ (fun hcon => hre hcon.symm)]
      exact hvf r hr
  case isFalse h =>
    exact ⟨hicf, hicp, hbf, hbp, hof, hop, hvf, hvp, hbt⟩

theorem increaseIcp_preserves_WF {g : SpecGraph} {N : ℕ} {s : EH} {e : Edge} {w : ℤ}
    (hWF : WF N s) (hrk : rkE g e < N) : WF N (increaseIcp g s e w) := by
  obtain ⟨hicf, hicp, hbf, hbp, hof, hop, hvf, hvp, hbt⟩ := hWF
  simp only [increaseIcp]
  split
  case isTrue h =>
    obtain ⟨h0, hw, hlive⟩ := h
    have hebN : s.edgeToBundle.getD (rkE g e) 0 < N := hbt _ hrk
    have hebL : s.edgeToBundle.getD (rkE g e) 0 < s.icp.length := by omega
    have hdir : if 0 < w then
        s.icp.getD (s.edgeToBundle.getD (rkE g e) 0) 0 ≤
          max (s.icp.getD (s.edgeToBundle.getD (rkE g e) 0) 0 + w) 0
      else
        max (s.icp.getD (s.edgeToBundle.getD (rkE g e) 0) 0 + w) 0 ≤
          s.icp.getD (s.edgeToBundle.getD (rkE g e) 0) 0 := by
      split
      case isTrue hw0 =>
        exact le_trans (by omega) (le_max_left _ _)
      case isFalse hw0 =>
        exact max_le (by omega) hlive
    have hmain := updateHeap_WF N w hbp hop hicp hebN hdir
    refine ⟨hicf, by simpa using hicp, hbf, hmain.2, hof, hmain.1, hvf, ?_, hbt⟩
    intro r hr
    by_cases hre : r = s.edgeToBundle.getD (rkE g e) 0
    · right
      rw [hre, getD_set_self _ _ _ _ hebL]
      exact le_max_right _ _
    · rw [getD_set_ne _ _ _ (fun hcon => hre hcon.symm)]
      exact hvp r hr
  case isFalse h =>
    exact ⟨hicf, hicp, hbf, hbp, hof, hop, hvf, hvp, hbt⟩

theorem removeEdgeR_preserves_WF {N : ℕ} {s : EH} {rId : ℕ}
    (hWF : WF N s) (hrN : rId < N) : WF N (removeEdgeR s rId) := by
  obtain ⟨hicf, hicp, hbf, hbp, hof, hop, hvf, hvp, hbt⟩ := hWF
  simp only [removeEdgeR]
  split
  case isTrue => exact ⟨hicf, hicp, hbf, hbp, hof, hop, hvf, hvp, hbt⟩
  case isFalse h0 =>
    split
    case isTrue h =>
      obtain ⟨_, hlf, hlp⟩ := h
      have hrLf : rId < s.icf.length := by omega
      have hrLp : rId < s.icp.length := by omega
      have hnn : ¬ (0 : ℤ) < Forbidden := by decide
      have hdirf : if 0 < Forbidden then s.icf.getD rId 0 ≤ Forbidden
          else Forbidden ≤ s.icf.getD rId 0 := by
        rw [if_neg hnn]
        rcases hvf rId hrN with hcase | hcase
        · exact absurd hcase hlf
        · refine le_trans ?_ hcase
          decide
      have hdirp : if 0 < Forbidden then s.icp.getD rId 0 ≤ Forbidden
          else Forbidden ≤ s.icp.getD rId 0 := by
        rw [if_neg hnn]
        rcases hvp rId hrN with hcase | hcase
        · exact absurd hcase hlp
        · refine le_trans ?_ hcase
          decide
      have hmf := updateHeap_WF N Forbidden hbf hof hicf hrN hdirf
      have hmp := updateHeap_WF N Forbidden hbp hop hicp hrN hdirp
      refine ⟨by simpa using hicf, by simpa using hicp, hmf.2, hmp.2, hmf.1, hmp.1,
        ?_, ?_, hbt⟩
      · intro r hr
        by_cases hre : r = rId
        · left
          rw [hre, getD_set_self _ _ _ _ hrLf]
        · rw [getD_set_ne _ _ _ (fun hcon => hre hcon.symm)]
          exact hvf r hr
      · intro r hr
        by_cases hre : r = rId
        · left
          rw [hre, getD_set_self _ _ _ _ hrLp]
        · rw [getD_set_ne _ _ _ (fun hcon => hre hcon.symm)]
          exact hvp r hr
    case isFalse =>
      exact ⟨hicf, hicp, hbf, hbp, hof, hop, hvf, hvp, hbt⟩

/-- `removeEdge` keeps both heap/index bijections (no score assumptions). -/
theorem removeEdgeR_bij {N : ℕ} {s : EH} {rId : ℕ}
    (hbf : heapBij N s.forb_rank2edge s.edge2forb_rank)
    (hbp : heapBij N s.perm_rank2edge s.edge2perm_rank)
    (hrN : rId < N) :
    heapBij N (removeEdgeR s rId).forb_rank2edge (removeEdgeR s rId).edge2forb_rank ∧
    heapBij N (removeEdgeR s rId).perm_rank2edge (removeEdgeR s rId).edge2perm_rank := by
  simp only [removeEdgeR]
  split
  case isTrue => exact ⟨hbf, hbp⟩
  case isFalse =>
    split
    case isTrue =>
      exact ⟨updateHeap_bij rId Forbidden _ hbf hrN, updateHeap_bij rId Forbidden _ hbp hrN⟩
    case isFalse => exact ⟨hbf, hbp⟩

/-- `mergeEdges` keeps both heap/index bijections. -/
theorem mergeEdges_bij {g : SpecGraph} {N : ℕ} {s : EH} {e1 e2 : Edge}
    (hWF : WF N s) (h1 : rkE g e1 < N) (h2 : rkE g e2 < N) :
    heapBij N (mergeEdges g s e1 e2).forb_rank2edge
      (mergeEdges g s e1 e2).edge2forb_rank ∧
    heapBij N (mergeEdges g s e1 e2).perm_rank2edge
      (mergeEdges g s e1 e2).edge2perm_rank := by
  obtain ⟨hicf, hicp, hbf, hbp, hof, hop, hvf, hvp, hbt⟩ := hWF
  simp only [mergeEdges]
  split
  case isTrue => exact ⟨hbf, hbp⟩
  case isFalse =>
    split
    case isTrue => exact ⟨hbf, hbp⟩
    case isFalse hne =>
      split
      case isTrue =>
        exact removeEdgeR_bij hbf hbp (hbt _ h2)
      case isFalse =>
        exact removeEdgeR_bij hbf hbp (hbt _ h1)

/-! ## Initialization: closed forms -/

/-- A weight the initialization actually tracks: neither zero nor one of
the two sentinels. -/
def plainW (w : ℤ) : Prop := ¬(w = 0 ∨ w = Forbidden ∨ w = Permanent)

instance (w : ℤ) : Decidable (plainW w) := by
  unfold plainW; infer_instance

/-- Closed form of the `icf` entry computed by `initInducedCosts`: the
direct deletion cost plus the kernel sum over common neighbours. -/
def icfFormula (g : SpecGraph) (u v : ℕ) : ℤ :=
  (if 0 ≤ wt g u v then wt g u v else 0) +
    ((commonNbrs g u v).map fun x => kernelIcf (wt g u x) (wt g v x)).sum

/-- Closed form of the `icp` entry computed by `initInducedCosts`: the
direct insertion cost plus the kernel sum over common neighbours. -/
def icpFormula (g : SpecGraph) (u v : ℕ) : ℤ :=
  (if 0 ≤ wt g u v then 0 else -wt g u v) +
    ((commonNbrs g u v).map fun x => kernelIcp (wt g u x) (wt g v x)).sum

theorem triangleFold_icf_length (g : SpecGraph) (rId u v : ℕ) :
    ∀ (l : List ℕ) (t : EH),
      (l.foldl (triangleStep g rId u v) t).icf.length = t.icf.length := by
  intro l
  induction l with
  | nil => intro t; rfl
  | cons x xs ih =>
    intro t
    rw [List.foldl_cons, ih]
    simp [triangleStep]

theorem triangleFold_icp_length (g : SpecGraph) (rId u v : ℕ) :
    ∀ (l : List ℕ) (t : EH),
      (l.foldl (triangleStep g rId u v) t).icp.length = t.icp.length := by
  intro l
  induction l with
  | nil => intro t; rfl
  | cons x xs ih =>
    intro t
    rw [List.foldl_cons, ih]
    simp [triangleStep]

theorem triangleFold_unprocessed (g : SpecGraph) (rId u v : ℕ) :
    ∀ (l : List ℕ) (t : EH),
      (l.foldl (triangleStep g rId u v) t).unprocessed = t.unprocessed := by
  intro l
  induction l with
  | nil => intro t; rfl
  | cons x xs ih =>
    intro t
    rw [List.foldl_cons, ih]
    rfl

theorem triangleFold_icf_getD_ne (g : SpecGraph) (rId u v r : ℕ) (h : rId ≠ r) :
    ∀ (l : List ℕ) (t : EH),
      (l.foldl (triangleStep g rId u v) t).icf.getD r 0 = t.icf.getD r 0 := by
  intro l
  induction l with
  | nil => intro t; rfl
  | cons x xs ih =>
    intro t
    rw [List.foldl_cons, ih]
    simp only [triangleStep]
    rw [getD_set_ne _ _ _ h]

theorem triangleFold_icp_getD_ne (g : SpecGraph) (rId u v r : ℕ) (h : rId ≠ r) :
    ∀ (l : List ℕ) (t : EH),
      (l.foldl (triangleStep g rId u v) t).icp.getD r 0 = t.icp.getD r 0 := by
  intro l
  induction l with
  | nil => intro t; rfl
  | cons x xs ih =>
    intro t
    rw [List.foldl_cons, ih]
    simp only [triangleStep]
    rw [getD_set_ne _ _ _ h]

theorem triangleFold_icf_getD (g : SpecGraph) (rId u v : ℕ) :
    ∀ (l : List ℕ) (t : EH), rId < t.icf.length →
      (l.foldl (triangleStep g rId u v) t).icf.getD rId 0 =
        t.icf.getD rId 0 + (l.map fun x => kernelIcf (wt g u x) (wt g v x)).sum := by
  intro l
  induction l with
  | nil =>
    intro t _
    simp
  | cons x xs ih =>
    intro t hlen
    rw [List.foldl_cons, ih _ (by simp [triangleStep, hlen])]
    have hstep : (triangleStep g rId u v t x).icf.getD rId 0 =
        t.icf.getD rId 0 + kernelIcf (wt g u x) (wt g v x) := by
      simp only [triangleStep]
      rw [getD_set_self _ _ _ _ hlen]
    rw [hstep, List.map_cons, List.sum_cons]
    ring

theorem triangleFold_icp_getD (g : SpecGraph) (rId u v : ℕ) :
    ∀ (l : List ℕ) (t : EH), rId < t.icp.length →
      (l.foldl (triangleStep g rId u v) t).icp.getD rId 0 =
        t.icp.getD rId 0 + (l.map fun x => kernelIcp (wt g u x) (wt g v x)).sum := by
  intro l
  induction l with
  | nil =>
    intro t _
    simp
  | cons x xs ih =>
    intro t hlen
    rw [List.foldl_cons, ih _ (by simp [triangleStep, hlen])]
    have hstep : (triangleStep g rId u v t x).icp.getD rId 0 =
        t.icp.getD rId 0 + kernelIcp (wt g u x) (wt g v x) := by
      simp only [triangleStep]
      rw [getD_set_self _ _ _ _ hlen]
    rw [hstep, List.map_cons, List.sum_cons]
    ring

theorem processPair_skip (g : SpecGraph) (s : EH) (u v : ℕ)
    (h : rk g u v = 0 ∨ ¬ plainW (wt g u v)) :
    (processPair g s u v).icf = s.icf ∧ (processPair g s u v).icp = s.icp ∧
      (processPair g s u v).unprocessed = s.unprocessed := by
  simp only [processPair]
  by_cases h0 : rk g u v = 0
  · rw [if_pos h0]
    exact ⟨rfl, rfl, rfl⟩
  · rw [if_neg h0]
    have hcond : wt g u v = 0 ∨ wt g u v = Forbidden ∨ wt g u v = Permanent := by
      rcases h with h' | h'
      · exact absurd h' h0
      · unfold plainW at h'
        exact not_not.mp h'
    rw [if_pos hcond]
    exact ⟨rfl, rfl, rfl⟩

theorem processPair_icf_getD_ne (g : SpecGraph) (s : EH) (u v r : ℕ)
    (hne : rk g u v ≠ r) :
    (processPair g s u v).icf.getD r 0 = s.icf.getD r 0 := by
  simp only [processPair]
  split
  case isTrue => rfl
  case isFalse h0 =>
    split
    case isTrue => rfl
    case isFalse hw =>
      rw [triangleFold_icf_getD_ne g _ u v r hne]
      dsimp only
      split
      · rw [getD_set_ne _ _ _ hne, getD_set_ne _ _ _ hne]
      · rw [getD_set_ne _ _ _ hne]

theorem processPair_icp_getD_ne (g : SpecGraph) (s : EH) (u v r : ℕ)
    (hne : rk g u v ≠ r) :
    (processPair g s u v).icp.getD r 0 = s.icp.getD r 0 := by
  simp only [processPair]
  split
  case isTrue => rfl
  case isFalse h0 =>
    split
    case isTrue => rfl
    case isFalse hw =>
      rw [triangleFold_icp_getD_ne g _ u v r hne]
      dsimp only
      split
      · rw [getD_set_ne _ _ _ hne]
      · rw [getD_set_ne _ _ _ hne, getD_set_ne _ _ _ hne]

theorem processPair_icf_length (g : SpecGraph) (s : EH) (u v : ℕ) :
    (processPair g s u v).icf.length = s.icf.length := by
  simp only [processPair]
  split
  case isTrue => rfl
  case isFalse =>
    split
    case isTrue => rfl
    case isFalse =>
      rw [triangleFold_icf_length]
      dsimp only
      split <;> simp

theorem processPair_icp_length (g : SpecGraph) (s : EH) (u v : ℕ) :
    (processPair g s u v).icp.length = s.icp.length := by
  simp only [processPair]
  split
  case isTrue => rfl
  case isFalse =>
    split
    case isTrue => rfl
    case isFalse =>
      rw [triangleFold_icp_length]
      dsimp only
      split <;> simp

theorem processPair_unprocessed (g : SpecGraph) (s : EH) (u v : ℕ) :
    (processPair g s u v).unprocessed =
      if rk g u v ≠ 0 ∧ plainW (wt g u v) then u64succ s.unprocessed
      else s.unprocessed := by
  simp only [processPair]
  split
  case isTrue h0 =>
    rw [if_neg (by simp [h0])]
  case isFalse h0 =>
    split
    case isTrue hw =>
      rw [if_neg (by simp [plainW, hw])]
    case isFalse hw =>
      have hcond : rk g u v ≠ 0 ∧ plainW (wt g u v) := ⟨h0, hw⟩
      rw [triangleFold_unprocessed, if_pos hcond]

theorem processPair_icf_getD_eq (g : SpecGraph) (s : EH) (u v : ℕ)
    (h0 : rk g u v ≠ 0) (hpl : plainW (wt g u v)) (hlen : rk g u v < s.icf.length) :
    (processPair g s u v).icf.getD (rk g u v) 0 = icfFormula g u v := by
  simp only [processPair]
  rw [if_neg h0, if_neg hpl]
  rw [triangleFold_icf_getD g _ u v _ _ (by dsimp only; split <;> simpa using hlen)]
  dsimp only
  by_cases hw : 0 ≤ wt g u v
  · rw [if_pos hw, getD_set_self _ _ _ _ (by simpa using hlen),
      getD_set_self _ _ _ _ hlen, icfFormula, if_pos hw]
    ring
  · rw [if_neg hw, getD_set_self _ _ _ _ hlen, icfFormula, if_neg hw]

theorem processPair_icp_getD_eq (g : SpecGraph) (s : EH) (u v : ℕ)
    (h0 : rk g u v ≠ 0) (hpl : plainW (wt g u v)) (hlen : rk g u v < s.icp.length) :
    (processPair g s u v).icp.getD (rk g u v) 0 = icpFormula g u v := by
  simp only [processPair]
  rw [if_neg h0, if_neg hpl]
  rw [triangleFold_icp_getD g _ u v _ _ (by dsimp only; split <;> simpa using hlen)]
  dsimp only
  by_cases hw : 0 ≤ wt g u v
  · rw [if_pos hw, getD_set_self _ _ _ _ hlen, icpFormula, if_pos hw]
  · rw [if_neg hw, getD_set_self _ _ _ _ (by simpa using hlen),
      getD_set_self _ _ _ _ hlen, icpFormula, if_neg hw]
    ring

/-! ## The pair loop as a whole -/

theorem foldl_processPair_icf_length (g : SpecGraph) :
    ∀ (L : List (ℕ × ℕ)) (s : EH),
      (L.foldl (fun s p => processPair g s p.1 p.2) s).icf.length = s.icf.length := by
  intro L
  induction L with
  | nil => intro s; rfl
  | cons p T ih =>
    intro s
    rw [List.foldl_cons, ih, processPair_icf_length]

theorem foldl_processPair_icp_length (g : SpecGraph) :
    ∀ (L : List (ℕ × ℕ)) (s : EH),
      (L.foldl (fun s p => processPair g s p.1 p.2) s).icp.length = s.icp.length := by
  intro L
  induction L with
  | nil => intro s; rfl
  | cons p T ih =>
    intro s
    rw [List.foldl_cons, ih, processPair_icp_length]

theorem foldl_processPair_icf_ne (g : SpecGraph) :
    ∀ (L : List (ℕ × ℕ)) (s : EH) (r : ℕ),
      (∀ p ∈ L, rk g p.1 p.2 = r → rk g p.1 p.2 = 0 ∨ ¬ plainW (wt g p.1 p.2)) →
      (L.foldl (fun s p => processPair g s p.1 p.2) s).icf.getD r 0 = s.icf.getD r 0 := by
  intro L
  induction L with
  | nil => intro s r _; rfl
  | cons p T ih =>
    intro s r h
    rw [List.foldl_cons, ih _ _ (fun q hq => h q (List.mem_cons_of_mem p hq))]
    by_cases hr : rk g p.1 p.2 = r
    · rw [(processPair_skip g s p.1 p.2 (h p (List.mem_cons_self p T) hr)).1]
    · exact processPair_icf_getD_ne g s p.1 p.2 r hr

theorem foldl_processPair_icp_ne (g : SpecGraph) :
    ∀ (L : List (ℕ × ℕ)) (s : EH) (r : ℕ),
      (∀ p ∈ L, rk g p.1 p.2 = r → rk g p.1 p.2 = 0 ∨ ¬ plainW (wt g p.1 p.2)) →
      (L.foldl (fun s p => processPair g s p.1 p.2) s).icp.getD r 0 = s.icp.getD r 0 := by
  intro L
  induction L with
  | nil => intro s r _; rfl
  | cons p T ih =>
    intro s r h
    rw [List.foldl_cons, ih _ _ (fun q hq => h q (List.mem_cons_of_mem p hq))]
    by_cases hr : rk g p.1 p.2 = r
    · rw [(processPair_skip g s p.1 p.2 (h p (List.mem_cons_self p T) hr)).2.1]
    · exact processPair_icp_getD_ne g s p.1 p.2 r hr

theorem foldl_processPair_icf_main (g : SpecGraph) :
    ∀ (L : List (ℕ × ℕ)) (s : EH) (u v : ℕ),
      rk g u v ≠ 0 → plainW (wt g u v) → rk g u v < s.icf.length →
      (∀ p ∈ L, rk g p.1 p.2 = rk g u v → p = (u, v)) →
      ((u, v) ∈ L ∨ s.icf.getD (rk g u v) 0 = icfFormula g u v) →
      (L.foldl (fun s p => processPair g s p.1 p.2) s).icf.getD (rk g u v) 0 =
        icfFormula g u v := by
  intro L
  induction L with
  | nil =>
    intro s u v _ _ _ _ hbase
    rcases hbase with h | h
    · simp at h
    · exact h
  | cons p T ih =>
    intro s u v h0 hpl hlen huniq hbase
    rw [List.foldl_cons]
    by_cases hp : p = (u, v)
    · subst hp
      exact ih _ u v h0 hpl (by rw [processPair_icf_length]; exact hlen)
        (fun q hq => huniq q (List.mem_cons_of_mem _ hq))
        (Or.inr (processPair_icf_getD_eq g s u v h0 hpl hlen))
    · have hrne : rk g p.1 p.2 ≠ rk g u v :=
        fun hcon => hp (huniq p (List.mem_cons_self p T) hcon)
      refine ih _ u v h0 hpl (by rw [processPair_icf_length]; exact hlen)
        (fun q hq => huniq q (List.mem_cons_of_mem p hq)) ?_
      rcases hbase with hmem | heq
      · rcases List.mem_cons.mp hmem with hx | hx
        · exact absurd hx.symm hp
        · exact Or.inl hx
      · right
        rw [processPair_icf_getD_ne g s p.1 p.2 _ hrne]
        exact heq

theorem foldl_processPair_icp_main (g : SpecGraph) :
    ∀ (L : List (ℕ × ℕ)) (s : EH) (u v : ℕ),
      rk g u v ≠ 0 → plainW (wt g u v) → rk g u v < s.icp.length →
      (∀ p ∈ L, rk g p.1 p.2 = rk g u v → p = (u, v)) →
      ((u, v) ∈ L ∨ s.icp.getD (rk g u v) 0 = icpFormula g u v) →
      (L.foldl (fun s p => processPair g s p.1 p.2) s).icp.getD (rk g u v) 0 =
        icpFormula g u v := by
  intro L
  induction L with
  | nil =>
    intro s u v _ _ _ _ hbase
    rcases hbase with h | h
    · simp at h
    · exact h
  | cons p T ih =>
    intro s u v h0 hpl hlen huniq hbase
    rw [List.foldl_cons]
    by_cases hp : p = (u, v)
    · subst hp
      exact ih _ u v h0 hpl (by rw [processPair_icp_length]; exact hlen)
        (fun q hq => huniq q (List.mem_cons_of_mem _ hq))
        (Or.inr (processPair_icp_getD_eq g s u v h0 hpl hlen))
    · have hrne : rk g p.1 p.2 ≠ rk g u v :=
        fun hcon => hp (huniq p (List.mem_cons_self p T) hcon)
      refine ih _ u v h0 hpl (by rw [processPair_icp_length]; exact hlen)
        (fun q hq => huniq q (List.mem_cons_of_mem p hq)) ?_
      rcases hbase with hmem | heq
      · rcases List.mem_cons.mp hmem with hx | hx
        · exact absurd hx.symm hp
        · exact Or.inl hx
      · right
        rw [processPair_icp_getD_ne g s p.1 p.2 _ hrne]
        exact heq

/-- The number of pairs in `L` that `initInducedCosts` seeds and counts:
non-zero rank and plain non-zero weight. -/
def trackedCount (g : SpecGraph) : List (ℕ × ℕ) → ℕ
  | [] => 0
  | p :: T => (if rk g p.1 p.2 ≠ 0 ∧ plainW (wt g p.1 p.2) then 1 else 0) + trackedCount g T

theorem foldl_processPair_unprocessed (g : SpecGraph) :
    ∀ (L : List (ℕ × ℕ)) (s : EH), s.unprocessed < 2 ^ 64 →
      (L.foldl (fun s p => processPair g s p.1 p.2) s).unprocessed =
        (s.unprocessed + trackedCount g L) % 2 ^ 64 := by
  intro L
  induction L with
  | nil =>
    intro s hlt
    simp only [List.foldl_nil, trackedCount, Nat.add_zero]
    exact (Nat.mod_eq_of_lt hlt).symm
  | cons p T ih =>
    intro s hlt
    have hstep := processPair_unprocessed g s p.1 p.2
    by_cases hc : rk g p.1 p.2 ≠ 0 ∧ plainW (wt g p.1 p.2)
    · rw [if_pos hc] at hstep
      have hlt2 : (processPair g s p.1 p.2).unprocessed < 2 ^ 64 := by
        rw [hstep]
        exact Nat.mod_lt _ (by norm_num)
      rw [List.foldl_cons, ih _ hlt2, hstep]
      simp only [trackedCount, if_pos hc, u64succ]
      omega
    · rw [if_neg hc] at hstep
      rw [List.foldl_cons, ih _ (by rw [hstep]; exact hlt), hstep]
      simp only [trackedCount, if_neg hc]
      omega

/-! ## The heap/bundle construction phase -/

theorem insertDesc_perm (score : List ℤ) (a : ℕ) :
    ∀ l : List ℕ, (insertDesc score a l).Perm (a :: l) := by
  intro l
  induction l with
  | nil => exact List.Perm.refl _
  | cons b t ih =>
    simp only [insertDesc]
    split
    · exact List.Perm.refl _
    · exact (ih.cons b).trans (List.Perm.swap a b t)

theorem sortDesc_perm (score : List ℤ) : ∀ l : List ℕ, (sortDesc score l).Perm l := by
  intro l
  induction l with
  | nil => exact List.Perm.refl _
  | cons x t ih =>
    exact (insertDesc_perm score x (sortDesc score t)).trans (ih.cons x)

theorem foldl_set_length {α β : Type} (gf : β → ℕ) (hf : List α → β → α) :
    ∀ (l : List β) (m : List α),
      (l.foldl (fun m i => m.set (gf i) (hf m i)) m).length = m.length := by
  intro l
  induction l with
  | nil => intro m; rfl
  | cons x t ih =>
    intro m
    rw [List.foldl_cons, ih]
    simp

theorem foldl_set_diag_getD :
    ∀ (n : ℕ) (m : List ℕ) (j : ℕ), j < n → j < m.length →
      ((List.range n).foldl (fun m i => m.set i i) m).getD j 0 = j := by
  intro n
  induction n with
  | zero => intro m j hj; omega
  | succ n ih =>
    intro m j hj hlen
    rw [List.range_succ, List.foldl_append, List.foldl_cons, List.foldl_nil]
    by_cases hjn : j = n
    · rw [hjn, getD_set_self]
      rw [foldl_set_length (fun i => i) (fun _ i => i)]
      omega
    · rw [getD_set_ne _ _ _ (fun hcon => hjn hcon.symm)]
      exact ih m j (by omega) hlen

theorem foldl_bundle_keep :
    ∀ (l : List ℕ) (m : List (List ℕ)) (j : ℕ), (∀ i ∈ l, i ≠ j) →
      ((l.foldl (fun m i => m.set i (m.getD i [] ++ [i])) m)).getD j [] = m.getD j [] := by
  intro l
  induction l with
  | nil => intro m j _; rfl
  | cons x t ih =>
    intro m j h
    rw [List.foldl_cons, ih _ _ (fun i hi => h i (List.mem_cons_of_mem x hi)),
      getD_set_ne _ _ _ (h x (List.mem_cons_self x t))]

theorem foldl_bundle_diag :
    ∀ (n : ℕ) (m : List (List ℕ)) (j : ℕ), j < n → j < m.length →
      ((List.range n).foldl (fun m i => m.set i (m.getD i [] ++ [i])) m).getD j [] =
        m.getD j [] ++ [j] := by
  intro n
  induction n with
  | zero => intro m j hj; omega
  | succ n ih =>
    intro m j hj hlen
    rw [List.range_succ, List.foldl_append, List.foldl_cons, List.foldl_nil]
    by_cases hjn : j = n
    · rw [hjn, getD_set_self _ _ _ _
        (by rw [foldl_set_length (fun i => i) (fun m i => m.getD i [] ++ [i])]; omega),
        foldl_bundle_keep _ _ _ (fun i hi => by
          have := List.mem_range.mp hi
          omega)]
    · rw [getD_set_ne _ _ _ (fun hcon => hjn hcon.symm)]
      exact ih m j (by omega) hlen

/-! ## Facts about the fully initialized engine -/

theorem triangleFold_edgeToBundle (g : SpecGraph) (rId u v : ℕ) :
    ∀ (l : List ℕ) (t : EH),
      (l.foldl (triangleStep g rId u v) t).edgeToBundle = t.edgeToBundle := by
  intro l
  induction l with
  | nil => intro t; rfl
  | cons x xs ih =>
    intro t
    rw [List.foldl_cons, ih]
    rfl

theorem triangleFold_edgeBundles (g : SpecGraph) (rId u v : ℕ) :
    ∀ (l : List ℕ) (t : EH),
      (l.foldl (triangleStep g rId u v) t).edgeBundles = t.edgeBundles := by
  intro l
  induction l with
  | nil => intro t; rfl
  | cons x xs ih =>
    intro t
    rw [List.foldl_cons, ih]
    rfl

theorem processPair_edgeToBundle (g : SpecGraph) (s : EH) (u v : ℕ) :
    (processPair g s u v).edgeToBundle = s.edgeToBundle := by
  simp only [processPair]
  split
  case isTrue => rfl
  case isFalse =>
    split
    case isTrue => rfl
    case isFalse => rw [triangleFold_edgeToBundle]

theorem processPair_edgeBundles (g : SpecGraph) (s : EH) (u v : ℕ) :
    (processPair g s u v).edgeBundles = s.edgeBundles := by
  simp only [processPair]
  split
  case isTrue => rfl
  case isFalse =>
    split
    case isTrue => rfl
    case isFalse => rw [triangleFold_edgeBundles]

theorem initPairsPhase_def (g : SpecGraph) (s0 : EH) :
    initPairsPhase g s0 = (pairsList g).foldl (fun s p => processPair g s p.1 p.2) s0 := rfl

theorem foldl_processPair_edgeToBundle (g : SpecGraph) :
    ∀ (L : List (ℕ × ℕ)) (s : EH),
      (L.foldl (fun s p => processPair g s p.1 p.2) s).edgeToBundle = s.edgeToBundle := by
  intro L
  induction L with
  | nil => intro s; rfl
  | cons p T ih =>
    intro s
    rw [List.foldl_cons, ih, processPair_edgeToBundle]

theorem foldl_processPair_edgeBundles (g : SpecGraph) :
    ∀ (L : List (ℕ × ℕ)) (s : EH),
      (L.foldl (fun s p => processPair g s p.1 p.2) s).edgeBundles = s.edgeBundles := by
  intro L
  induction L with
  | nil => intro s; rfl
  | cons p T ih =>
    intro s
    rw [List.foldl_cons, ih, processPair_edgeBundles]

theorem mkEH_icf_length (n : ℕ) : (mkEH n).icf.length = 1 + n := by
  simp [mkEH]

theorem mkEH_icp_length (n : ℕ) : (mkEH n).icp.length = 1 + n := by
  simp [mkEH]

theorem initPairsPhase_icf_length (g : SpecGraph) :
    (initPairsPhase g (mkEH g.numEdges)).icf.length = 1 + g.numEdges := by
  rw [initPairsPhase_def, foldl_processPair_icf_length, mkEH_icf_length]

theorem initPairsPhase_icp_length (g : SpecGraph) :
    (initPairsPhase g (mkEH g.numEdges)).icp.length = 1 + g.numEdges := by
  rw [initPairsPhase_def, foldl_processPair_icp_length, mkEH_icp_length]

theorem initInducedCosts_icf (g : SpecGraph) (s0 : EH) :
    (initInducedCosts g s0).icf = (initPairsPhase g s0).icf := rfl

theorem initInducedCosts_icp (g : SpecGraph) (s0 : EH) :
    (initInducedCosts g s0).icp = (initPairsPhase g s0).icp := rfl

theorem initInducedCosts_unprocessed (g : SpecGraph) (s0 : EH) :
    (initInducedCosts g s0).unprocessed = (initPairsPhase g s0).unprocessed := rfl

theorem initInducedCosts_forb (g : SpecGraph) (s0 : EH) :
    (initInducedCosts g s0).forb_rank2edge =
      sortDesc (initPairsPhase g s0).icf
        (List.range (initPairsPhase g s0).icf.length) := rfl

theorem initInducedCosts_perm (g : SpecGraph) (s0 : EH) :
    (initInducedCosts g s0).perm_rank2edge =
      sortDesc (initPairsPhase g s0).icp
        (List.range (initPairsPhase g s0).icf.length) := rfl

theorem initInducedCosts_edgeToBundle (g : SpecGraph) (s0 : EH) :
    (initInducedCosts g s0).edgeToBundle =
      (List.range (initPairsPhase g s0).icf.length).foldl (fun m i => m.set i i)
        (initPairsPhase g s0).edgeToBundle := rfl

theorem initInducedCosts_edgeBundles (g : SpecGraph) (s0 : EH) :
    (initInducedCosts g s0).edgeBundles =
      (List.range (initPairsPhase g s0).icf.length).foldl
        (fun m i => m.set i (m.getD i [] ++ [i]))
        (initPairsPhase g s0).edgeBundles := rfl

/-- Closed form of the `icf` entry of a tracked plain edge after
initialization. -/
theorem edgeHeapInit_icf_getD (g : SpecGraph) (u v : ℕ)
    (h0 : rk g u v ≠ 0) (hpl : plainW (wt g u v)) (hrank : rk g u v ≤ g.numEdges)
    (hmem : (u, v) ∈ pairsList g)
    (huniq : ∀ p ∈ pairsList g, rk g p.1 p.2 = rk g u v → p = (u, v)) :
    (edgeHeapInit g).icf.getD (rk g u v) 0 = icfFormula g u v := by
  rw [edgeHeapInit, initInducedCosts_icf, initPairsPhase_def]
  exact foldl_processPair_icf_main g (pairsList g) (mkEH g.numEdges) u v h0 hpl
    (by rw [mkEH_icf_length]; omega) huniq (Or.inl hmem)

/-- Closed form of the `icp` entry of a tracked plain edge after
initialization. -/
theorem edgeHeapInit_icp_getD (g : SpecGraph) (u v : ℕ)
    (h0 : rk g u v ≠ 0) (hpl : plainW (wt g u v)) (hrank : rk g u v ≤ g.numEdges)
    (hmem : (u, v) ∈ pairsList g)
    (huniq : ∀ p ∈ pairsList g, rk g p.1 p.2 = rk g u v → p = (u, v)) :
    (edgeHeapInit g).icp.getD (rk g u v) 0 = icpFormula g u v := by
  rw [edgeHeapInit, initInducedCosts_icp, initPairsPhase_def]
  exact foldl_processPair_icp_main g (pairsList g) (mkEH g.numEdges) u v h0 hpl
    (by rw [mkEH_icp_length]; omega) huniq (Or.inl hmem)

/-- `unprocessed` after initialization counts exactly the tracked plain
pairs (modulo the `uint64_t` width). -/
theorem edgeHeapInit_unprocessed (g : SpecGraph) :
    (edgeHeapInit g).unprocessed = trackedCount g (pairsList g) % 2 ^ 64 := by
  rw [edgeHeapInit, initInducedCosts_unprocessed, initPairsPhase_def,
    foldl_processPair_unprocessed g (pairsList g) (mkEH g.numEdges) (by simp [mkEH])]
  simp [mkEH]

/-- Entries whose rank is never seeded by the pair loop stay at the
`Forbidden` sentinel of the constructor. -/
theorem edgeHeapInit_icf_getD_untracked (g : SpecGraph) (r : ℕ)
    (hlt : r < 1 + g.numEdges)
    (h : ∀ p ∈ pairsList g, rk g p.1 p.2 = r →
      rk g p.1 p.2 = 0 ∨ ¬ plainW (wt g p.1 p.2)) :
    (edgeHeapInit g).icf.getD r 0 = Forbidden := by
  rw [edgeHeapInit, initInducedCosts_icf, initPairsPhase_def,
    foldl_processPair_icf_ne g (pairsList g) (mkEH g.numEdges) r h]
  exact getD_replicate _ _ hlt

theorem edgeHeapInit_icp_getD_untracked (g : SpecGraph) (r : ℕ)
    (hlt : r < 1 + g.numEdges)
    (h : ∀ p ∈ pairsList g, rk g p.1 p.2 = r →
      rk g p.1 p.2 = 0 ∨ ¬ plainW (wt g p.1 p.2)) :
    (edgeHeapInit g).icp.getD r 0 = Forbidden := by
  rw [edgeHeapInit, initInducedCosts_icp, initPairsPhase_def,
    foldl_processPair_icp_ne g (pairsList g) (mkEH g.numEdges) r h]
  exact getD_replicate _ _ hlt

/-- After initialization every rank (including `0`) is its own bundle
representative. -/
theorem edgeHeapInit_edgeToBundle_getD (g : SpecGraph) (r : ℕ)
    (hlt : r < 1 + g.numEdges) :
    (edgeHeapInit g).edgeToBundle.getD r 0 = r := by
  rw [edgeHeapInit, initInducedCosts_edgeToBundle, initPairsPhase_def,
    foldl_processPair_edgeToBundle]
  refine foldl_set_diag_getD _ _ r ?_ (by simp [mkEH]; omega)
  rw [← initPairsPhase_def, initPairsPhase_icf_length]
  omega

/-- After initialization every rank (including `0`) has the singleton
bundle member list `[r]`. -/
theorem edgeHeapInit_edgeBundles_getD (g : SpecGraph) (r : ℕ)
    (hlt : r < 1 + g.numEdges) :
    (edgeHeapInit g).edgeBundles.getD r [] = [r] := by
  rw [edgeHeapInit, initInducedCosts_edgeBundles, initPairsPhase_def,
    foldl_processPair_edgeBundles]
  have hdiag := foldl_bundle_diag
    ((initPairsPhase g (mkEH g.numEdges)).icf.length)
    (mkEH g.numEdges).edgeBundles r
    (by rw [initPairsPhase_icf_length]; omega) (by simp [mkEH]; omega)
  rw [initPairsPhase_def] at hdiag
  rw [hdiag]
  simp only [mkEH]
  rw [getD_replicate _ _ hlt]
  rfl

/-- Rank `0` occupies a slot of both heap arrays after initialization. -/
theorem edgeHeapInit_zero_mem_heaps (g : SpecGraph) :
    0 ∈ (edgeHeapInit g).forb_rank2edge ∧ 0 ∈ (edgeHeapInit g).perm_rank2edge := by
  constructor
  · rw [edgeHeapInit, initInducedCosts_forb]
    rw [(sortDesc_perm _ _).mem_iff, List.mem_range, initPairsPhase_icf_length]
    omega
  · rw [edgeHeapInit, initInducedCosts_perm]
    rw [(sortDesc_perm _ _).mem_iff, List.mem_range, initPairsPhase_icf_length]
    omega

/-! ## Pointwise behaviour of `removeEdge` -/

theorem removeEdgeR_eq_self_of_dead (s : EH) (rId : ℕ)
    (h : ¬(s.icf.getD rId 0 ≠ Forbidden ∧ s.icp.getD rId 0 ≠ Forbidden)) :
    removeEdgeR s rId = s := by
  simp only [removeEdgeR]
  split
  case isTrue => rfl
  case isFalse =>
    rw [if_neg (fun hcon => h ⟨hcon.2.1, hcon.2.2⟩)]

theorem removeEdgeR_zero (s : EH) : removeEdgeR s 0 = s := rfl

theorem removeEdgeR_live (s : EH) (rId : ℕ) (h0 : rId ≠ 0)
    (hf : s.icf.getD rId 0 ≠ Forbidden) (hp : s.icp.getD rId 0 ≠ Forbidden)
    (hlf : rId < s.icf.length) (hlp : rId < s.icp.length) :
    (removeEdgeR s rId).icf.getD rId 0 = Forbidden ∧
    (removeEdgeR s rId).icp.getD rId 0 = Forbidden ∧
    (removeEdgeR s rId).unprocessed = u64pred s.unprocessed := by
  simp only [removeEdgeR]
  rw [if_neg h0, if_pos ⟨Nat.pos_of_ne_zero h0, hf, hp⟩]
  exact ⟨getD_set_self _ _ _ _ hlf, getD_set_self _ _ _ _ hlp, rfl⟩

theorem removeEdgeR_icf_getD_other (s : EH) (rId r : ℕ) (hne : rId ≠ r) :
    (removeEdgeR s rId).icf.getD r 0 = s.icf.getD r 0 := by
  simp only [removeEdgeR]
  split
  case isTrue => rfl
  case isFalse =>
    split
    case isTrue => exact getD_set_ne _ _ _ hne
    case isFalse => rfl

theorem removeEdgeR_icp_getD_other (s : EH) (rId r : ℕ) (hne : rId ≠ r) :
    (removeEdgeR s rId).icp.getD r 0 = s.icp.getD r 0 := by
  simp only [removeEdgeR]
  split
  case isTrue => rfl
  case isFalse =>
    split
    case isTrue => exact getD_set_ne _ _ _ hne
    case isFalse => rfl

theorem removeEdgeR_anomaly (s : EH) (rId : ℕ) :
    (removeEdgeR s rId).anomaly = s.anomaly := by
  simp only [removeEdgeR]
  split
  case isTrue => rfl
  case isFalse =>
    split
    case isTrue => rfl
    case isFalse => rfl

theorem u64pred_of_pos {u : ℕ} (h0 : 0 < u) (h1 : u < 2 ^ 64) :
    u64pred u = u - 1 := by
  rw [u64pred]
  omega

/-- Membership in the iterated pair list. -/
theorem mem_pairsList (g : SpecGraph) {u v : ℕ} (huv : u ≤ v) (hv : v < g.numNodes)
    (hw : wt g u v ≠ 0) : (u, v) ∈ pairsList g := by
  unfold pairsList nonZeroNeighbours
  rw [List.mem_flatMap]
  refine ⟨u, List.mem_range.mpr (by omega), ?_⟩
  rw [List.mem_map]
  refine ⟨v, ?_, rfl⟩
  simp only [List.mem_filter, List.mem_range, decide_eq_true_eq]
  refine ⟨⟨hv, ?_⟩, by simp [huv]⟩
  simpa using hw

/-! ## Concrete test graphs -/

/-- Two nodes joined by one negative edge of rank 1. -/
def g1 : SpecGraph :=
  { numNodes := 2, numEdges := 1
    weight := fun u v => if u = 0 ∧ v = 1 then -5 else 0
    rankOf := fun u v => if u = 0 ∧ v = 1 then 1 else 0 }

/-- Three disjoint positive edges of ranks 1, 2, 3. -/
def g3 : SpecGraph :=
  { numNodes := 6, numEdges := 3
    weight := fun u v =>
      if u = 0 ∧ v = 1 then 10
      else if u = 2 ∧ v = 3 then 6
      else if u = 4 ∧ v = 5 then 5 else 0
    rankOf := fun u v =>
      if u = 0 ∧ v = 1 then 1
      else if u = 2 ∧ v = 3 then 2
      else if u = 4 ∧ v = 5 then 3 else 0 }

/-- Two nodes joined by an edge fixed to the `Forbidden` sentinel weight,
still carrying the non-zero rank 1. -/
def g4 : SpecGraph :=
  { numNodes := 2, numEdges := 1
    weight := fun u v => if u = 0 ∧ v = 1 then Forbidden else 0
    rankOf := fun u v => if u = 0 ∧ v = 1 then 1 else 0 }

/-! ## Claim theorems -/

/-- C1: the claim says two edges with non-zero ranks and distinct live
bundles always get merged, yet for the tracked edges of ranks 1 and 2
(distinct live singleton bundles) `mergeEdges` changes nothing: the guard
`(r1 & r2) == 0` is a bitwise AND, which is zero for the disjoint bit
patterns 1 and 2 even though both ranks are non-zero.  This evaluates the
code at the failing input. -/
theorem C1_merge_skips_disjoint_bit_ranks :
    rkE g3 (0, 1) = 1 ∧ rkE g3 (2, 3) = 2 ∧
    (edgeHeapInit g3).edgeToBundle.getD (rkE g3 (0, 1)) 0 ≠
      (edgeHeapInit g3).edgeToBundle.getD (rkE g3 (2, 3)) 0 ∧
    0 ≤ (edgeHeapInit g3).icf.getD 1 0 ∧ 0 ≤ (edgeHeapInit g3).icp.getD 1 0 ∧
    0 ≤ (edgeHeapInit g3).icf.getD 2 0 ∧ 0 ≤ (edgeHeapInit g3).icp.getD 2 0 ∧
    mergeEdges g3 (edgeHeapInit g3) (0, 1) (2, 3) = edgeHeapInit g3 := by
  decide

/-- C2 (counterexample): merging the live bundles of ranks 2 and 3 (icf 6
and 5 under a root of 10) leaves the surviving bundle's summed value 11 at
a non-root slot without re-sifting it, so the forbid heap violates the
max-heap order right after the mutation, although the state was
well-formed before. -/
theorem C2_merge_breaks_heap_order :
    WF 4 (edgeHeapInit g3) ∧
    ¬ heapOrdered (mergeEdges g3 (edgeHeapInit g3) (2, 3) (4, 5)).icf
        (mergeEdges g3 (edgeHeapInit g3) (2, 3) (4, 5)).forb_rank2edge := by
  decide

/-- C2 (amended): after `increaseIcf`, `increaseIcp` and `removeEdge` a
well-formed state stays well-formed (max-heap order and reverse-index
consistency in both heaps); after `mergeEdges` the reverse-index
consistency of both heaps is preserved, but the max-heap order may be
violated at the surviving bundle. -/
theorem C2_heap_invariants (g : SpecGraph) (N : ℕ) (s : EH) (e1 e2 : Edge) (w : ℤ)
    (hWF : WF N s) (h1 : rkE g e1 < N) (h2 : rkE g e2 < N) :
    WF N (increaseIcf g s e1 w) ∧ WF N (increaseIcp g s e1 w) ∧
    WF N (removeEdgeE g s e1) ∧
    (heapBij N (mergeEdges g s e1 e2).forb_rank2edge
        (mergeEdges g s e1 e2).edge2forb_rank ∧
      heapBij N (mergeEdges g s e1 e2).perm_rank2edge
        (mergeEdges g s e1 e2).edge2perm_rank) :=
  ⟨increaseIcf_preserves_WF hWF h1, increaseIcp_preserves_WF hWF h1,
    removeEdgeR_preserves_WF hWF h1, mergeEdges_bij hWF h1 h2⟩

/-- C2 (witness): the amended preservation applied to the initialized
3-edge engine. -/
theorem C2_heap_invariants_witness :
    WF 4 (increaseIcf g3 (edgeHeapInit g3) (0, 1) 5) ∧
    WF 4 (increaseIcp g3 (edgeHeapInit g3) (0, 1) 5) ∧
    WF 4 (removeEdgeE g3 (edgeHeapInit g3) (0, 1)) ∧
    (heapBij 4 (mergeEdges g3 (edgeHeapInit g3) (0, 1) (2, 3)).forb_rank2edge
        (mergeEdges g3 (edgeHeapInit g3) (0, 1) (2, 3)).edge2forb_rank ∧
      heapBij 4 (mergeEdges g3 (edgeHeapInit g3) (0, 1) (2, 3)).perm_rank2edge
        (mergeEdges g3 (edgeHeapInit g3) (0, 1) (2, 3)).edge2perm_rank) :=
  C2_heap_invariants g3 4 (edgeHeapInit g3) (0, 1) (2, 3) 5 (by decide) (by decide)
    (by decide)

/-- C3 (counterexample): on the single-edge graph with weight -5 the top
of the forbid heap holds the value 0, which is non-positive, yet
`getMaxIcfEdge` returns the edge `(0,1)` instead of the "no edge" result:
the code tests `icf[ei] < 0`, not `≤ 0` as claimed. -/
theorem C3_zero_top_returns_edge :
    1 < (edgeHeapInit g1).forb_rank2edge.length ∧
    (edgeHeapInit g1).icf.getD ((edgeHeapInit g1).forb_rank2edge.getD 0 0) 0 = 0 ∧
    getMaxIcfEdge (edgeHeapInit g1) = (0, 1) ∧ (0, 1) ≠ InvalidEdge := by
  decide

/-- C3 (amended): the max queries return `InvalidEdge` exactly when only
the rank-0 placeholder remains (length ≤ 1) or the top value is strictly
negative; otherwise (top value ≥ 0, in particular also when it is exactly
0) they return the edge stored at heap slot 0. -/
theorem C3_max_queries (s : EH) :
    (s.forb_rank2edge.length ≤ 1 → getMaxIcfEdge s = InvalidEdge) ∧
    (s.icf.getD (s.forb_rank2edge.getD 0 0) 0 < 0 → getMaxIcfEdge s = InvalidEdge) ∧
    (1 < s.forb_rank2edge.length → 0 ≤ s.icf.getD (s.forb_rank2edge.getD 0 0) 0 →
      getMaxIcfEdge s = s.edges.getD (s.forb_rank2edge.getD 0 0) InvalidEdge) ∧
    (s.perm_rank2edge.length ≤ 1 → getMaxIcpEdge s = InvalidEdge) ∧
    (s.icp.getD (s.perm_rank2edge.getD 0 0) 0 < 0 → getMaxIcpEdge s = InvalidEdge) ∧
    (1 < s.perm_rank2edge.length → 0 ≤ s.icp.getD (s.perm_rank2edge.getD 0 0) 0 →
      getMaxIcpEdge s = s.edges.getD (s.perm_rank2edge.getD 0 0) InvalidEdge) := by
  refine ⟨?_, ?_, ?_, ?_, ?_, ?_⟩
  · intro h
    simp only [getMaxIcfEdge]
    rw [if_pos h]
  · intro h
    simp only [getMaxIcfEdge]
    by_cases hl : s.forb_rank2edge.length ≤ 1
    · rw [if_pos hl]
    · rw [if_neg hl, if_pos h]
  · intro h1 h2
    simp only [getMaxIcfEdge]
    rw [if_neg (by omega), if_neg (not_lt.mpr h2)]
  · intro h
    simp only [getMaxIcpEdge]
    rw [if_pos h]
  · intro h
    simp only [getMaxIcpEdge]
    by_cases hl : s.perm_rank2edge.length ≤ 1
    · rw [if_pos hl]
    · rw [if_neg hl, if_pos h]
  · intro h1 h2
    simp only [getMaxIcpEdge]
    rw [if_neg (by omega), if_neg (not_lt.mpr h2)]

/-- C3 (witness): the non-negative-top branch of both queries on the
initialized single-edge engine. -/
theorem C3_max_queries_witness :
    getMaxIcfEdge (edgeHeapInit g1) =
      (edgeHeapInit g1).edges.getD ((edgeHeapInit g1).forb_rank2edge.getD 0 0)
        InvalidEdge ∧
    getMaxIcpEdge (edgeHeapInit g1) =
      (edgeHeapInit g1).edges.getD ((edgeHeapInit g1).perm_rank2edge.getD 0 0)
        InvalidEdge :=
  ⟨(C3_max_queries (edgeHeapInit g1)).2.2.1 (by decide) (by decide),
    (C3_max_queries (edgeHeapInit g1)).2.2.2.2.2 (by decide) (by decide)⟩

/-- C4 (counterexample): after initialization of the single-edge graph,
rank 0 occupies a slot of both heap arrays, is mapped to a bundle by the
bundle map, and owns the singleton member list `[0]` — the claim that
rank 0 never appears in these structures is false. -/
theorem C4_rank_zero_in_structures :
    0 ∈ (edgeHeapInit g1).forb_rank2edge ∧
    0 ∈ (edgeHeapInit g1).perm_rank2edge ∧
    (edgeHeapInit g1).edgeToBundle.getD 0 0 = 0 ∧
    (edgeHeapInit g1).edgeBundles.getD 0 [] = [0] := by
  decide

/-- C4 (amended): rank 0 is never given a live cost value — after
`initInducedCosts` (for every graph) its `icf` and `icp` entries still
hold the `Forbidden` sentinel set by the constructor — but it does occupy
a (placeholder) slot in each heap array, it is its own singleton bundle,
and the bundle map sends it to itself. -/
theorem C4_rank_zero_placeholder (g : SpecGraph) :
    (edgeHeapInit g).icf.getD 0 0 = Forbidden ∧
    (edgeHeapInit g).icp.getD 0 0 = Forbidden ∧
    0 ∈ (edgeHeapInit g).forb_rank2edge ∧
    0 ∈ (edgeHeapInit g).perm_rank2edge ∧
    (edgeHeapInit g).edgeToBundle.getD 0 0 = 0 ∧
    (edgeHeapInit g).edgeBundles.getD 0 [] = [0] :=
  ⟨edgeHeapInit_icf_getD_untracked g 0 (by omega) (fun _ _ hr => Or.inl hr),
    edgeHeapInit_icp_getD_untracked g 0 (by omega) (fun _ _ hr => Or.inl hr),
    (edgeHeapInit_zero_mem_heaps g).1, (edgeHeapInit_zero_mem_heaps g).2,
    edgeHeapInit_edgeToBundle_getD g 0 (by omega),
    edgeHeapInit_edgeBundles_getD g 0 (by omega)⟩

/-- C5 (counterexample): after rank 1 has been absorbed into bundle 3,
its bundle is still live, yet `removeEdge` on that edge changes nothing
at all — in particular it does not set the owning bundle's entries to
`Forbidden` and does not decrement `unprocessed`: the code operates on
the rank's own (already removed) slot, not on its current bundle. -/
theorem C5_remove_merged_rank_noop :
    rkE g3 (0, 1) = 1 ∧
    (mergeEdges g3 (edgeHeapInit g3) (0, 1) (4, 5)).icf.getD
      ((mergeEdges g3 (edgeHeapInit g3) (0, 1) (4, 5)).edgeToBundle.getD 1 0) 0 ≠
        Forbidden ∧
    removeEdgeE g3 (mergeEdges g3 (edgeHeapInit g3) (0, 1) (4, 5)) (0, 1) =
      mergeEdges g3 (edgeHeapInit g3) (0, 1) (4, 5) := by
  decide

/-- C5 (amended): for a non-zero rank whose own `icf`/`icp` entries (not
those of its current bundle) are still live, `removeEdge` sets those two
entries to the `Forbidden` sentinel, decrements `unprocessed` by one, and
re-heapifies both heaps (they stay max-ordered and index-consistent); a
rank already absorbed into another bundle is a no-op instead. -/
theorem C5_remove_acts_on_own_rank {N : ℕ} {s : EH} {rId : ℕ}
    (hWF : WF N s) (h0 : rId ≠ 0) (hrN : rId < N)
    (hf : s.icf.getD rId 0 ≠ Forbidden) (hp : s.icp.getD rId 0 ≠ Forbidden)
    (hu0 : 0 < s.unprocessed) (hu1 : s.unprocessed < 2 ^ 64) :
    (removeEdgeR s rId).icf.getD rId 0 = Forbidden ∧
    (removeEdgeR s rId).icp.getD rId 0 = Forbidden ∧
    (removeEdgeR s rId).unprocessed = s.unprocessed - 1 ∧
    heapOrdered (removeEdgeR s rId).icf (removeEdgeR s rId).forb_rank2edge ∧
    heapOrdered (removeEdgeR s rId).icp (removeEdgeR s rId).perm_rank2edge ∧
    heapBij N (removeEdgeR s rId).forb_rank2edge (removeEdgeR s rId).edge2forb_rank ∧
    heapBij N (removeEdgeR s rId).perm_rank2edge (removeEdgeR s rId).edge2perm_rank := by
  have hlf : rId < s.icf.length := by
    rw [hWF.1]
    exact hrN
  have hlp : rId < s.icp.length := by
    rw [hWF.2.1]
    exact hrN
  have hlive := removeEdgeR_live s rId h0 hf hp hlf hlp
  have hWF' := removeEdgeR_preserves_WF hWF hrN
  refine ⟨hlive.1, hlive.2.1, ?_, hWF'.2.2.2.2.1, hWF'.2.2.2.2.2.1,
    hWF'.2.2.1, hWF'.2.2.2.1⟩
  rw [hlive.2.2]
  exact u64pred_of_pos hu0 hu1

/-- C5 (witness): removing the live rank 1 of the initialized 3-edge
engine. -/
theorem C5_remove_witness :
    (removeEdgeR (edgeHeapInit g3) 1).icf.getD 1 0 = Forbidden ∧
    (removeEdgeR (edgeHeapInit g3) 1).icp.getD 1 0 = Forbidden ∧
    (removeEdgeR (edgeHeapInit g3) 1).unprocessed = (edgeHeapInit g3).unprocessed - 1 ∧
    heapOrdered (removeEdgeR (edgeHeapInit g3) 1).icf
      (removeEdgeR (edgeHeapInit g3) 1).forb_rank2edge ∧
    heapOrdered (removeEdgeR (edgeHeapInit g3) 1).icp
      (removeEdgeR (edgeHeapInit g3) 1).perm_rank2edge ∧
    heapBij 4 (removeEdgeR (edgeHeapInit g3) 1).forb_rank2edge
      (removeEdgeR (edgeHeapInit g3) 1).edge2forb_rank ∧
    heapBij 4 (removeEdgeR (edgeHeapInit g3) 1).perm_rank2edge
      (removeEdgeR (edgeHeapInit g3) 1).edge2perm_rank :=
  @C5_remove_acts_on_own_rank 4 (edgeHeapInit g3) 1
    (by decide) (by decide) (by decide) (by decide) (by decide) (by decide) (by decide)

/-- C6 (counterexample): for the rank-0 edge `(0,0)` both removals are
no-ops, so `unprocessed` stays at 1 instead of decreasing by exactly 1
across the two calls as the claim requires of every edge. -/
theorem C6_no_decrement_counterexample :
    removeEdgeE g1 (removeEdgeE g1 (edgeHeapInit g1) (0, 0)) (0, 0) = edgeHeapInit g1 ∧
    (edgeHeapInit g1).unprocessed = 1 := by
  decide

/-- C6 (amended): `removeEdge` is idempotent for every in-range rank, and
rank 0 is always a no-op; `unprocessed` decreases by exactly 1 across the
two calls combined only when the rank's entries were live before the
first call (for a rank-0, never-tracked or already removed edge both
calls change nothing). -/
theorem C6_remove_idempotent (s : EH) (rId : ℕ)
    (hlf : rId < s.icf.length) (hlp : rId < s.icp.length) :
    removeEdgeR (removeEdgeR s rId) rId = removeEdgeR s rId ∧
    removeEdgeR s 0 = s ∧
    (rId ≠ 0 → s.icf.getD rId 0 ≠ Forbidden → s.icp.getD rId 0 ≠ Forbidden →
      0 < s.unprocessed → s.unprocessed < 2 ^ 64 →
      (removeEdgeR (removeEdgeR s rId) rId).unprocessed = s.unprocessed - 1) := by
  have hidem : removeEdgeR (removeEdgeR s rId) rId = removeEdgeR s rId := by
    by_cases h0 : rId = 0
    · rw [h0, removeEdgeR_zero, removeEdgeR_zero]
    by_cases hlive : s.icf.getD rId 0 ≠ Forbidden ∧ s.icp.getD rId 0 ≠ Forbidden
    · refine removeEdgeR_eq_self_of_dead _ _ (fun hcon => hcon.1 ?_)
      exact (removeEdgeR_live s rId h0 hlive.1 hlive.2 hlf hlp).1
    · rw [removeEdgeR_eq_self_of_dead s rId hlive, removeEdgeR_eq_self_of_dead s rId hlive]
  refine ⟨hidem, removeEdgeR_zero s, ?_⟩
  intro h0 hf hp hu0 hu1
  rw [hidem, (removeEdgeR_live s rId h0 hf hp hlf hlp).2.2]
  exact u64pred_of_pos hu0 hu1

/-- C6 (witness): double removal of the live rank 2 equals single
removal and costs exactly one `unprocessed` decrement. -/
theorem C6_remove_idempotent_witness :
    removeEdgeR (removeEdgeR (edgeHeapInit g3) 2) 2 = removeEdgeR (edgeHeapInit g3) 2 ∧
    (removeEdgeR (removeEdgeR (edgeHeapInit g3) 2) 2).unprocessed =
      (edgeHeapInit g3).unprocessed - 1 :=
  ⟨(C6_remove_idempotent (edgeHeapInit g3) 2 (by decide) (by decide)).1,
    (C6_remove_idempotent (edgeHeapInit g3) 2 (by decide) (by decide)).2.2
      (by decide) (by decide) (by decide) (by decide) (by decide)⟩

/-- C7: for a non-zero rank, a non-zero delta and a live (`≥ 0`) bundle
entry, `increaseIcf` (resp. `increaseIcp`) sets the bundle's entry to
`max (old + delta) 0` — the delta clamped so the result never drops below
0 — and the resulting live entry is therefore never negative. -/
theorem C7_increase_clamped (g : SpecGraph) (s : EH) (e : Edge) (w : ℤ)
    (h0 : 0 < rkE g e) (hw : w ≠ 0) :
    (0 ≤ s.icf.getD (s.edgeToBundle.getD (rkE g e) 0) 0 →
      s.edgeToBundle.getD (rkE g e) 0 < s.icf.length →
      (increaseIcf g s e w).icf.getD (s.edgeToBundle.getD (rkE g e) 0) 0 =
        max (s.icf.getD (s.edgeToBundle.getD (rkE g e) 0) 0 + w) 0 ∧
      0 ≤ (increaseIcf g s e w).icf.getD (s.edgeToBundle.getD (rkE g e) 0) 0) ∧
    (0 ≤ s.icp.getD (s.edgeToBundle.getD (rkE g e) 0) 0 →
      s.edgeToBundle.getD (rkE g e) 0 < s.icp.length →
      (increaseIcp g s e w).icp.getD (s.edgeToBundle.getD (rkE g e) 0) 0 =
        max (s.icp.getD (s.edgeToBundle.getD (rkE g e) 0) 0 + w) 0 ∧
      0 ≤ (increaseIcp g s e w).icp.getD (s.edgeToBundle.getD (rkE g e) 0) 0) := by
  constructor
  · intro hlive hlen
    simp only [increaseIcf]
    rw [if_pos ⟨h0, hw, hlive⟩]
    have hset := getD_set_self s.icf (s.edgeToBundle.getD (rkE g e) 0)
      (max (s.icf.getD (s.edgeToBundle.getD (rkE g e) 0) 0 + w) 0) 0 hlen
    exact ⟨hset, by rw [hset]; exact le_max_right _ _⟩
  · intro hlive hlen
    simp only [increaseIcp]
    rw [if_pos ⟨h0, hw, hlive⟩]
    have hset := getD_set_self s.icp (s.edgeToBundle.getD (rkE g e) 0)
      (max (s.icp.getD (s.edgeToBundle.getD (rkE g e) 0) 0 + w) 0) 0 hlen
    exact ⟨hset, by rw [hset]; exact le_max_right _ _⟩

/-- C7 (witness): a delta of -20 on the live entry 10 of rank 1 clamps
the result at 0. -/
theorem C7_increase_clamped_witness :
    ((increaseIcf g3 (edgeHeapInit g3) (0, 1) (-20)).icf.getD
        ((edgeHeapInit g3).edgeToBundle.getD (rkE g3 (0, 1)) 0) 0 =
      max ((edgeHeapInit g3).icf.getD
        ((edgeHeapInit g3).edgeToBundle.getD (rkE g3 (0, 1)) 0) 0 + -20) 0 ∧
    0 ≤ (increaseIcf g3 (edgeHeapInit g3) (0, 1) (-20)).icf.getD
        ((edgeHeapInit g3).edgeToBundle.getD (rkE g3 (0, 1)) 0) 0) ∧
    ((increaseIcp g3 (edgeHeapInit g3) (0, 1) (-20)).icp.getD
        ((edgeHeapInit g3).edgeToBundle.getD (rkE g3 (0, 1)) 0) 0 =
      max ((edgeHeapInit g3).icp.getD
        ((edgeHeapInit g3).edgeToBundle.getD (rkE g3 (0, 1)) 0) 0 + -20) 0 ∧
    0 ≤ (increaseIcp g3 (edgeHeapInit g3) (0, 1) (-20)).icp.getD
        ((edgeHeapInit g3).edgeToBundle.getD (rkE g3 (0, 1)) 0) 0) :=
  ⟨(C7_increase_clamped g3 (edgeHeapInit g3) (0, 1) (-20) (by decide) (by decide)).1
      (by decide) (by decide),
    (C7_increase_clamped g3 (edgeHeapInit g3) (0, 1) (-20) (by decide) (by decide)).2
      (by decide) (by decide)⟩

/-- C8: after `initInducedCosts`, a tracked edge `(u,v)` of non-zero rank
and plain non-zero weight has `icf` equal to its non-negative direct
weight plus the kernel's forbid contributions over the common non-zero
neighbours of `u` and `v`, and `icp` equal to the direct insertion cost
`|w|` (when `w < 0`) plus the kernel's permanent contributions; the
`unprocessed` counter is incremented exactly once per tracked plain pair
of the iteration (modulo the `uint64_t` width). -/
theorem C8_init_induced_costs (g : SpecGraph) (u v : ℕ)
    (huv : u < v) (hv : v < g.numNodes) (h0 : rk g u v ≠ 0)
    (hpl : plainW (wt g u v)) (hrank : rk g u v ≤ g.numEdges)
    (huniq : ∀ p ∈ pairsList g, rk g p.1 p.2 = rk g u v → p = (u, v)) :
    (edgeHeapInit g).icf.getD (rk g u v) 0 = icfFormula g u v ∧
    (edgeHeapInit g).icp.getD (rk g u v) 0 = icpFormula g u v ∧
    (edgeHeapInit g).unprocessed = trackedCount g (pairsList g) % 2 ^ 64 := by
  have hw : wt g u v ≠ 0 := fun hcon => hpl (Or.inl hcon)
  have hmem := mem_pairsList g (le_of_lt huv) hv hw
  exact ⟨edgeHeapInit_icf_getD g u v h0 hpl hrank hmem huniq,
    edgeHeapInit_icp_getD g u v h0 hpl hrank hmem huniq,
    edgeHeapInit_unprocessed g⟩

/-- C8 (witness): the closed forms evaluated on the 3-edge graph for the
edge `(0,1)` of weight 10. -/
theorem C8_init_induced_costs_witness :
    (edgeHeapInit g3).icf.getD (rk g3 0 1) 0 = icfFormula g3 0 1 ∧
    (edgeHeapInit g3).icp.getD (rk g3 0 1) 0 = icpFormula g3 0 1 ∧
    (edgeHeapInit g3).unprocessed = trackedCount g3 (pairsList g3) % 2 ^ 64 :=
  C8_init_induced_costs g3 0 1 (by decide) (by decide) (by decide) (by decide)
    (by decide) (by decide)

/-- C9 (counterexample): when the surviving (larger) bundle is the one
already removed, the merge neither checks it nor reports: after removing
bundle 3 and merging the live bundle 2 into it, no anomaly is reported
and the live value is summed onto the `Forbidden` sentinel — the claim
that the merge checks both sides and always reports is false. -/
theorem C9_survivor_not_checked :
    (removeEdgeE g3 (mergeEdges g3 (edgeHeapInit g3) (0, 1) (4, 5)) (4, 5)).icf.getD
      ((removeEdgeE g3 (mergeEdges g3 (edgeHeapInit g3) (0, 1) (4, 5)) (4, 5)).edgeToBundle.getD
        (rkE g3 (4, 5)) 0) 0 = Forbidden ∧
    0 ≤ (removeEdgeE g3 (mergeEdges g3 (edgeHeapInit g3) (0, 1) (4, 5)) (4, 5)).icf.getD
      ((removeEdgeE g3 (mergeEdges g3 (edgeHeapInit g3) (0, 1) (4, 5)) (4, 5)).edgeToBundle.getD
        (rkE g3 (2, 3)) 0) 0 ∧
    (mergeEdges g3 (removeEdgeE g3 (mergeEdges g3 (edgeHeapInit g3) (0, 1) (4, 5)) (4, 5))
      (4, 5) (2, 3)).anomaly = 0 ∧
    (mergeEdges g3 (removeEdgeE g3 (mergeEdges g3 (edgeHeapInit g3) (0, 1) (4, 5)) (4, 5))
      (4, 5) (2, 3)).icf.getD 3 0 = Forbidden + 6 := by
  decide

/-- C9 (amended): only the absorbed (smaller) bundle's entries are
checked: when the absorbed bundle's `icf` is in the removed state the
merge reports the anomaly and excludes that value from the sum (the
surviving `icf` is unchanged), and likewise per dimension for `icp`; the
surviving bundle's own removed state is not checked. -/
theorem C9_absorbed_side_checked (g : SpecGraph) (s : EH) (e1 e2 : Edge)
    (h12 : rkE g e1 &&& rkE g e2 ≠ 0)
    (hne : s.edgeToBundle.getD (rkE g e1) 0 ≠ s.edgeToBundle.getD (rkE g e2) 0)
    (hsz : (s.edgeBundles.getD (s.edgeToBundle.getD (rkE g e2) 0) []).length <
      (s.edgeBundles.getD (s.edgeToBundle.getD (rkE g e1) 0) []).length)
    (habs : s.icf.getD (s.edgeToBundle.getD (rkE g e2) 0) 0 < 0) :
    (mergeEdges g s e1 e2).icf.getD (s.edgeToBundle.getD (rkE g e1) 0) 0 =
      s.icf.getD (s.edgeToBundle.getD (rkE g e1) 0) 0 ∧
    s.anomaly < (mergeEdges g s e1 e2).anomaly ∧
    (s.icp.getD (s.edgeToBundle.getD (rkE g e2) 0) 0 < 0 →
      (mergeEdges g s e1 e2).icp.getD (s.edgeToBundle.getD (rkE g e1) 0) 0 =
        s.icp.getD (s.edgeToBundle.getD (rkE g e1) 0) 0) := by
  simp only [mergeEdges]
  rw [if_neg h12, if_neg hne, if_pos hsz]
  simp only [mergeInto]
  refine ⟨?_, ?_, ?_⟩
  · rw [removeEdgeR_icf_getD_other _ _ _ (fun hcon => hne hcon.symm)]
    exact congrFun (congrFun (congrArg List.getD (if_pos habs)) _) _
  · rw [removeEdgeR_anomaly]
    rw [if_pos habs]
    split <;> (dsimp only; omega)
  · intro hicp
    rw [removeEdgeR_icp_getD_other _ _ _ (fun hcon => hne hcon.symm)]
    exact congrFun (congrFun (congrArg List.getD (if_pos hicp)) _) _

/-- C9 (witness): merging the removed singleton bundle 2 into the live
two-member bundle 3 reports and leaves the survivor untouched. -/
theorem C9_absorbed_side_checked_witness :
    (mergeEdges g3 (removeEdgeE g3 (mergeEdges g3 (edgeHeapInit g3) (0, 1) (4, 5)) (2, 3))
        (4, 5) (2, 3)).icf.getD
      ((removeEdgeE g3 (mergeEdges g3 (edgeHeapInit g3) (0, 1) (4, 5)) (2, 3)).edgeToBundle.getD
        (rkE g3 (4, 5)) 0) 0 =
      (removeEdgeE g3 (mergeEdges g3 (edgeHeapInit g3) (0, 1) (4, 5)) (2, 3)).icf.getD
        ((removeEdgeE g3 (mergeEdges g3 (edgeHeapInit g3) (0, 1) (4, 5)) (2, 3)).edgeToBundle.getD
          (rkE g3 (4, 5)) 0) 0 ∧
    (removeEdgeE g3 (mergeEdges g3 (edgeHeapInit g3) (0, 1) (4, 5)) (2, 3)).anomaly <
      (mergeEdges g3 (removeEdgeE g3 (mergeEdges g3 (edgeHeapInit g3) (0, 1) (4, 5)) (2, 3))
        (4, 5) (2, 3)).anomaly ∧
    (mergeEdges g3 (removeEdgeE g3 (mergeEdges g3 (edgeHeapInit g3) (0, 1) (4, 5)) (2, 3))
        (4, 5) (2, 3)).icp.getD
      ((removeEdgeE g3 (mergeEdges g3 (edgeHeapInit g3) (0, 1) (4, 5)) (2, 3)).edgeToBundle.getD
        (rkE g3 (4, 5)) 0) 0 =
      (removeEdgeE g3 (mergeEdges g3 (edgeHeapInit g3) (0, 1) (4, 5)) (2, 3)).icp.getD
        ((removeEdgeE g3 (mergeEdges g3 (edgeHeapInit g3) (0, 1) (4, 5)) (2, 3)).edgeToBundle.getD
          (rkE g3 (4, 5)) 0) 0 :=
  ⟨(C9_absorbed_side_checked g3
      (removeEdgeE g3 (mergeEdges g3 (edgeHeapInit g3) (0, 1) (4, 5)) (2, 3)) (4, 5) (2, 3)
      (by decide) (by decide) (by decide) (by decide)).1,
    (C9_absorbed_side_checked g3
      (removeEdgeE g3 (mergeEdges g3 (edgeHeapInit g3) (0, 1) (4, 5)) (2, 3)) (4, 5) (2, 3)
      (by decide) (by decide) (by decide) (by decide)).2.1,
    (C9_absorbed_side_checked g3
      (removeEdgeE g3 (mergeEdges g3 (edgeHeapInit g3) (0, 1) (4, 5)) (2, 3)) (4, 5) (2, 3)
      (by decide) (by decide) (by decide) (by decide)).2.2 (by decide)⟩

/-- C10: an edge whose rank is tracked but whose weight is 0, `Forbidden`
or `Permanent` is skipped by `initInducedCosts`: its `icf`/`icp` entries
keep the constructor's `Forbidden` sentinel, it is not counted in
`unprocessed` (the count requires a plain weight), and subsequent
`removeEdge`/`increaseIcf`/`increaseIcp` calls on it change nothing, like
for an already-removed entry. -/
theorem C10_sentinel_edges_skipped (g : SpecGraph) (u v : ℕ)
    (h0 : rk g u v ≠ 0) (hlt : rk g u v < 1 + g.numEdges)
    (hw : wt g u v = 0 ∨ wt g u v = Forbidden ∨ wt g u v = Permanent)
    (huniq : ∀ p ∈ pairsList g, rk g p.1 p.2 = rk g u v → p = (u, v)) :
    (edgeHeapInit g).icf.getD (rk g u v) 0 = Forbidden ∧
    (edgeHeapInit g).icp.getD (rk g u v) 0 = Forbidden ∧
    removeEdgeR (edgeHeapInit g) (rk g u v) = edgeHeapInit g ∧
    (∀ w' : ℤ, increaseIcf g (edgeHeapInit g) (u, v) w' = edgeHeapInit g) ∧
    (∀ w' : ℤ, increaseIcp g (edgeHeapInit g) (u, v) w' = edgeHeapInit g) ∧
    ¬ plainW (wt g u v) ∧
    (edgeHeapInit g).unprocessed = trackedCount g (pairsList g) % 2 ^ 64 := by
  have hnp : ¬ plainW (wt g u v) := fun hpl => hpl hw
  have hskip : ∀ p ∈ pairsList g, rk g p.1 p.2 = rk g u v →
      rk g p.1 p.2 = 0 ∨ ¬ plainW (wt g p.1 p.2) := by
    intro p hp hr
    right
    rw [huniq p hp hr]
    exact hnp
  have hicf := edgeHeapInit_icf_getD_untracked g (rk g u v) hlt hskip
  have hicp := edgeHeapInit_icp_getD_untracked g (rk g u v) hlt hskip
  have hbt := edgeHeapInit_edgeToBundle_getD g (rk g u v) hlt
  refine ⟨hicf, hicp,
    removeEdgeR_eq_self_of_dead _ _ (fun hcon => hcon.1 hicf), ?_, ?_, hnp,
    edgeHeapInit_unprocessed g⟩
  · intro w'
    simp only [increaseIcf]
    rw [if_neg]
    intro hcon
    obtain ⟨_, _, hge⟩ := hcon
    rw [show rkE g (u, v) = rk g u v from rfl, hbt, hicf] at hge
    exact absurd hge (by decide)
  · intro w'
    simp only [increaseIcp]
    rw [if_neg]
    intro hcon
    obtain ⟨_, _, hge⟩ := hcon
    rw [show rkE g (u, v) = rk g u v from rfl, hbt, hicp] at hge
    exact absurd hge (by decide)

/-- C10 (witness): the rank-1 edge of weight `Forbidden` stays at the
sentinel and every mutation on it is a no-op. -/
theorem C10_sentinel_edges_skipped_witness :
    (edgeHeapInit g4).icf.getD (rk g4 0 1) 0 = Forbidden ∧
    (edgeHeapInit g4).icp.getD (rk g4 0 1) 0 = Forbidden ∧
    removeEdgeR (edgeHeapInit g4) (rk g4 0 1) = edgeHeapInit g4 ∧
    increaseIcf g4 (edgeHeapInit g4) (0, 1) 7 = edgeHeapInit g4 ∧
    increaseIcp g4 (edgeHeapInit g4) (0, 1) (-7) = edgeHeapInit g4 ∧
    ¬ plainW (wt g4 0 1) ∧
    (edgeHeapInit g4).unprocessed = trackedCount g4 (pairsList g4) % 2 ^ 64 :=
  ⟨(C10_sentinel_edges_skipped g4 0 1 (by decide) (by decide) (by decide) (by decide)).1,
    (C10_sentinel_edges_skipped g4 0 1 (by decide) (by decide) (by decide) (by decide)).2.1,
    (C10_sentinel_edges_skipped g4 0 1 (by decide) (by decide) (by decide) (by decide)).2.2.1,
    (C10_sentinel_edges_skipped g4 0 1 (by decide) (by decide) (by decide) (by decide)).2.2.2.1 7,
    (C10_sentinel_edges_skipped g4 0 1 (by decide) (by decide) (by decide)
      (by decide)).2.2.2.2.1 (-7),
    (C10_sentinel_edges_skipped g4 0 1 (by decide) (by decide) (by decide)
      (by decide)).2.2.2.2.2.1,
    (C10_sentinel_edges_skipped g4 0 1 (by decide) (by decide) (by decide)
      (by decide)).2.2.2.2.2.2⟩

end EdgeHeapModel
